import Mathlib

/-!
The cross-thread event bridge of `CWorker` (client/src/workers/CWorker.cpp)

A shallow embedding of the worker's two event queues, its two handler
registries, the two dispatch loops and the thread lifecycle, followed by the
properties established about them.

Conventions of the embedding.

* The script engine is an external collaborator.  It is a parameter
  (`Engine`): the value conversion `MValueToV8`, the effect of calling a
  callback (`Call`), and `PumpMessageLoop`.
* A run that does not produce a result is reported as a `Fault`:
  `undefinedBehaviour` when an invalidated iterator is used or an empty
  handle is handed to the engine, `outOfFuel` when the loop bound given to
  the model is exhausted.
* Every lock-protected operation is one atomic step; the interleaving of the
  worker thread with the calls made by the main thread is a list of `Event`s.
-/

namespace CWorker

/-! ## Values, callbacks and the script engine -/

/-- Reasons for which a modelled run yields no result. -/
inductive Fault where
  | undefinedBehaviour
  | outOfFuel
  deriving DecidableEq, Repr

/-- The handle type `v8::Local<v8::Value>`; `none` is the empty handle that a
default-constructed `Local` holds. -/
abbrev Local (V : Type) := Option V

/-- The pair `(eventName, args)` stored in the queues
(`std::make_pair(eventName, args)`). -/
abbrev QueuedEvent (M : Type) := String × List M

/-- The value `V8::EventCallback(isolate, callback, location, once)`: the
callback (identified by a number) and its `once` flag.  The source location is
debug information that no function of the file reads. -/
structure EventCallback where
  fn : Nat
  once : Bool
  deriving DecidableEq, Repr

/-- What a callback can do to the bridge while it runs: register a callback
(the globals `on` and `once`) or emit an event (the global `emit`); these are
the three functions `SetupGlobals` installs. -/
inductive ScriptAction (M : Type) where
  | subscribe (eventName : String) (callback : Nat) (once : Bool)
  | emit (eventName : String) (args : List M)
  deriving DecidableEq, Repr

/-- The observable outcome of `fn->Call(...)`: whether the call failed (an
empty `MaybeLocal` is returned, which the dispatch loops discard) and the
bridge operations the callback performed, in order. -/
structure CallResult (M : Type) where
  threw : Bool
  actions : List (ScriptAction M)
  deriving DecidableEq, Repr

/-- The script engine, taken as a parameter: `V8Helpers::MValueToV8`, the
behaviour of calling callback `fn` with an argument vector in an isolate whose
script state is `σ`, and `v8::platform::PumpMessageLoop`.  `Call` describes
`v8::Function::Call` on vectors whose handles all refer to a value; the
dispatch loop does not consult it for a vector that holds an empty handle
(see `callHandlers`). -/
structure Engine (M V σ : Type) where
  MValueToV8 : M → V
  Call : σ → Nat → List (Local V) → σ × CallResult M
  PumpMessageLoop : σ → σ

/-! ## The handler registry -/

/-- One element of a registry: the key, the mapped callback, and the address
of the node, by which iterators refer to it. -/
structure Node where
  addr : Nat
  key : String
  val : EventCallback
  deriving DecidableEq, Repr

/-- Modelled from the spec: the container type of `worker_eventHandlers` and
`main_eventHandlers`, which CWorker.h declares (the header is not among the
sources).  Spec §2: "a multimap from event name to ordered handler entries";
§3: "mapping from event name → ordered sequence of HandlerEntry; insertion
order preserved"; §4.2: Subscribe "appends a HandlerEntry to the sequence for
`name`".  The nodes are kept in insertion order; the equal range of a name is
the subsequence of the nodes under that name, so a node inserted under a name
comes last in the equal range of that name.  As in the node-based containers
of the standard library, iterators refer to nodes: inserting leaves the
iterators to other nodes valid, erasing a node invalidates the iterators to
it.  `fresh` is the address the next inserted node receives. -/
structure EventHandlerMap where
  nodes : List Node
  fresh : Nat
  deriving DecidableEq, Repr

/-- An iterator into a registry: it refers to a node, or it is the position
just past the last node of an equal range (what `equal_range(k).second`
denotes). -/
inductive Iterator where
  | node (addr : Nat)
  | rangeEnd
  deriving DecidableEq, Repr

/-- Iterator to the first node of `l` under key `k`, the end of the range if
there is none. -/
def firstWithKey (k : String) (l : List Node) : Iterator :=
  match l.find? (fun n => n.key == k) with
  | some n => Iterator.node n.addr
  | none => Iterator.rangeEnd

namespace EventHandlerMap

/-- The empty registry. -/
def empty : EventHandlerMap := ⟨[], 0⟩

/-- The call `insert({ k, v })`: a new node at the end of the sequence. -/
def insert (m : EventHandlerMap) (k : String) (v : EventCallback) : EventHandlerMap :=
  { nodes := m.nodes ++ [⟨m.fresh, k, v⟩], fresh := m.fresh + 1 }

/-- The call `equal_range(k)`: the pair `(first, second)`. -/
def equal_range (m : EventHandlerMap) (k : String) : Iterator × Iterator :=
  (firstWithKey k m.nodes, Iterator.rangeEnd)

/-- Dereferencing an iterator that refers to address `a`; `none` when no node
of the container has that address (the iterator is invalid). -/
def deref (m : EventHandlerMap) (a : Nat) : Option Node :=
  m.nodes.find? (fun n => n.addr == a)

/-- The call `erase(it)`: the node leaves the container, and every iterator
that referred to it is invalid from then on. -/
def erase (m : EventHandlerMap) (a : Nat) : EventHandlerMap :=
  { m with nodes := m.nodes.filter (fun n => n.addr != a) }

/-- The step `it++` from an iterator that refers to address `a`: the next
node of the same equal range, or its end.  `none` when `a` is not a node of
the container: incrementing an invalidated iterator is undefined. -/
def next (m : EventHandlerMap) (a : Nat) : Option Iterator :=
  match m.nodes.dropWhile (fun n => n.addr != a) with
  | [] => none
  | n :: rest => some (firstWithKey n.key rest)

/-- The nodes under key `k`, in iteration order. -/
def range (m : EventHandlerMap) (k : String) : List Node :=
  m.nodes.filter (fun n => n.key == k)

end EventHandlerMap

/-! ## The state of a worker -/

/-- The state the functions of CWorker.cpp read and write: the data members
of the object (`isolate` stands for the script state of the worker's own
isolate) and `mainIsolate`, the script state of the isolate that is current
on the main thread when `HandleMainEventQueue` runs. -/
structure State (M σ : Type) where
  filePath : String
  shouldTerminate : Bool
  isReady : Bool
  worker_queuedEvents : List (QueuedEvent M)
  main_queuedEvents : List (QueuedEvent M)
  worker_eventHandlers : EventHandlerMap
  main_eventHandlers : EventHandlerMap
  isolate : σ
  mainIsolate : σ

/-- What one dispatch loop works on: the queue it drains, the registry it
consults, the isolate its callbacks run in, and the queue of the other
direction, to which those callbacks emit. -/
structure Side (M σ : Type) where
  queuedEvents : List (QueuedEvent M)
  eventHandlers : EventHandlerMap
  isolate : σ
  peerQueue : List (QueuedEvent M)

/-- One handler invocation, as recorded in the trace of a dispatch pass: the
registry node whose callback was called, the callback, the argument vector
passed to `Call`, and what the call did. -/
structure Invocation (M V : Type) where
  entry : Nat
  fn : Nat
  args : List (Local V)
  result : CallResult M

variable {M V σ : Type}

/-! ## Bridge operations -/

/-- `CWorker::Destroy`. -/
def Destroy (w : State M σ) : State M σ :=
  { w with shouldTerminate := true }

/-- `CWorker::EmitToWorker`: push onto the queue drained by the worker. -/
def EmitToWorker (w : State M σ) (eventName : String) (args : List M) : State M σ :=
  { w with worker_queuedEvents := w.worker_queuedEvents ++ [(eventName, args)] }

/-- `CWorker::EmitToMain`: push onto the queue drained by the main thread. -/
def EmitToMain (w : State M σ) (eventName : String) (args : List M) : State M σ :=
  { w with main_queuedEvents := w.main_queuedEvents ++ [(eventName, args)] }

/-- `CWorker::SubscribeToWorker`. -/
def SubscribeToWorker (w : State M σ) (eventName : String) (callback : Nat) (once : Bool) :
    State M σ :=
  { w with worker_eventHandlers := w.worker_eventHandlers.insert eventName ⟨callback, once⟩ }

/-- `CWorker::SubscribeToMain`. -/
def SubscribeToMain (w : State M σ) (eventName : String) (callback : Nat) (once : Bool) :
    State M σ :=
  { w with main_eventHandlers := w.main_eventHandlers.insert eventName ⟨callback, once⟩ }

/-! ## The dispatch loops -/

/-- Modelled from the spec: the functions `Emit`, `On` and `Once` that
`SetupGlobals` registers are defined outside CWorker.cpp.  Spec §5, §6:
`SubscribeToWorker` "is expected to be called from worker-side code",
`EmitToMain` is "callable only from within worker-side code", and the main
side is symmetric.  So a bridge operation performed by a running callback
acts on the side the callback runs on: `on`/`once` insert into the registry
of that side (as `SubscribeToWorker`, `SubscribeToMain` do), `emit` pushes
onto the queue of the other direction (as `EmitToMain`, `EmitToWorker`
do). -/
def Side.perform (s : Side M σ) : ScriptAction M → Side M σ
  | ScriptAction.subscribe eventName callback once =>
    { s with eventHandlers := s.eventHandlers.insert eventName ⟨callback, once⟩ }
  | ScriptAction.emit eventName args =>
    { s with peerQueue := s.peerQueue ++ [(eventName, args)] }

/-- The argument vector built for one event: `args(event.second.size())`
creates one empty handle per argument, then `push_back` appends the converted
arguments behind them. -/
def makeArgs (E : Engine M V σ) (event : QueuedEvent M) : List (Local V) :=
  List.replicate event.2.length none ++ event.2.map (fun arg => some (E.MValueToV8 arg))

/-- The loop `for(auto it = handlers.first; it != handlers.second; it++)`:
call the callback of the node, erase the node if it is `once`, advance.
`Call(context, recv, args.size(), args.data())` reads every handle of the
vector; an empty handle refers to no value, so a call with a vector that
holds one is undefined and the loop does not get past it.  `fuel` bounds the
number of iterations. -/
def callHandlers (E : Engine M V σ) (args : List (Local V)) (last : Iterator) :
    Nat → Iterator → Side M σ → Except Fault (Side M σ × List (Invocation M V))
  | fuel, it, s =>
    if it = last then Except.ok (s, [])
    else
      match fuel, it with
      | 0, _ => Except.error Fault.outOfFuel
      | _ + 1, Iterator.rangeEnd => Except.error Fault.undefinedBehaviour
      | fuel + 1, Iterator.node a =>
        match s.eventHandlers.deref a with
        | none => Except.error Fault.undefinedBehaviour
        | some n =>
          if args.any Option.isNone then Except.error Fault.undefinedBehaviour
          else
            let r := E.Call s.isolate n.val.fn args
            let s1 := r.2.actions.foldl Side.perform { s with isolate := r.1 }
            let s2 := if n.val.once then
                { s1 with eventHandlers := s1.eventHandlers.erase a }
              else s1
            match s2.eventHandlers.next a with
            | none => Except.error Fault.undefinedBehaviour
            | some it' =>
              match callHandlers E args last fuel it' s2 with
              | Except.ok (s3, tr) => Except.ok (s3, ⟨a, n.val.fn, args, r.2⟩ :: tr)
              | Except.error e => Except.error e

/-- The loop `while(!queuedEvents.empty())`: take the event at the front,
build the argument vector, call all handlers of the event name, pop the
event.  `n` bounds the number of iterations, `fuel` those of each inner
loop. -/
def drainQueue (E : Engine M V σ) (fuel : Nat) :
    Nat → Side M σ → Except Fault (Side M σ × List (Invocation M V))
  | n, s =>
    match s.queuedEvents with
    | [] => Except.ok (s, [])
    | event :: _ =>
      match n with
      | 0 => Except.error Fault.outOfFuel
      | n + 1 =>
        let args := makeArgs E event
        let handlers := s.eventHandlers.equal_range event.1
        match callHandlers E args handlers.2 fuel handlers.1 s with
        | Except.error e => Except.error e
        | Except.ok (s1, tr1) =>
          match drainQueue E fuel n { s1 with queuedEvents := s1.queuedEvents.tail } with
          | Except.ok (s2, tr2) => Except.ok (s2, tr1 ++ tr2)
          | Except.error e => Except.error e

/-- The body shared by `HandleWorkerEventQueue` and `HandleMainEventQueue`
(the two functions differ only in the members they name). -/
def HandleEventQueue (E : Engine M V σ) (fuel : Nat) (s : Side M σ) :
    Except Fault (Side M σ × List (Invocation M V)) :=
  drainQueue E fuel fuel s

/-- The members `HandleWorkerEventQueue` works on. -/
def workerSide (w : State M σ) : Side M σ :=
  ⟨w.worker_queuedEvents, w.worker_eventHandlers, w.isolate, w.main_queuedEvents⟩

/-- Write back the members `HandleWorkerEventQueue` works on. -/
def putWorkerSide (w : State M σ) (s : Side M σ) : State M σ :=
  { w with worker_queuedEvents := s.queuedEvents, worker_eventHandlers := s.eventHandlers,
           isolate := s.isolate, main_queuedEvents := s.peerQueue }

/-- The members `HandleMainEventQueue` works on. -/
def mainSide (w : State M σ) : Side M σ :=
  ⟨w.main_queuedEvents, w.main_eventHandlers, w.mainIsolate, w.worker_queuedEvents⟩

/-- Write back the members `HandleMainEventQueue` works on. -/
def putMainSide (w : State M σ) (s : Side M σ) : State M σ :=
  { w with main_queuedEvents := s.queuedEvents, main_eventHandlers := s.eventHandlers,
           mainIsolate := s.isolate, worker_queuedEvents := s.peerQueue }

/-- `CWorker::HandleWorkerEventQueue`: one pass over `worker_queuedEvents`
against `worker_eventHandlers`; returns the state and the trace of handler
invocations. -/
def HandleWorkerEventQueue (E : Engine M V σ) (fuel : Nat) (w : State M σ) :
    Except Fault (State M σ × List (Invocation M V)) :=
  match HandleEventQueue E fuel (workerSide w) with
  | Except.ok (s, tr) => Except.ok (putWorkerSide w s, tr)
  | Except.error e => Except.error e

/-- `CWorker::HandleMainEventQueue`: one pass over `main_queuedEvents`
against `main_eventHandlers`. -/
def HandleMainEventQueue (E : Engine M V σ) (fuel : Nat) (w : State M σ) :
    Except Fault (State M σ × List (Invocation M V)) :=
  match HandleEventQueue E fuel (mainSide w) with
  | Except.ok (s, tr) => Except.ok (putMainSide w s, tr)
  | Except.error e => Except.error e

/-! ## The worker thread -/

/-- `CWorker::SetupIsolate` ("todo: create isolate and stuff"): the body is
empty. -/
def SetupIsolate (w : State M σ) : State M σ := w

/-- `CWorker::DestroyIsolate` ("todo: clean up isolate and stuff"): the body
is empty. -/
def DestroyIsolate (w : State M σ) : State M σ := w

/-- `CWorker::EventLoop`: returns `false` at once when termination was
requested; otherwise runs one pass over the worker queue, pumps the message
loop and returns `true`. -/
def EventLoop (E : Engine M V σ) (fuel : Nat) (w : State M σ) :
    Except Fault (State M σ × Bool × List (Invocation M V)) :=
  if w.shouldTerminate then Except.ok (w, false, [])
  else
    match HandleWorkerEventQueue E fuel w with
    | Except.ok (w1, tr) =>
      Except.ok ({ w1 with isolate := E.PumpMessageLoop w1.isolate }, true, tr)
    | Except.error e => Except.error e

/-- The statement `CWorker::Thread` executes next. -/
inductive Pc where
  | setupIsolate
  | setReady
  | emitLoad
  | sleep
  | eventLoop
  | destroyIsolate
  | deleteThis
  | finished
  deriving DecidableEq, Repr

/-- A worker together with the control state of its thread. -/
structure Machine (M σ : Type) where
  w : State M σ
  pc : Pc

/-- Modelled from the spec: the initial values of the members, which the
class declaration in CWorker.h gives (the header is not among the sources).
Spec §3: `ready` is "false until engine context constructed", `terminating`
is "set once"; queues and registries start empty.  The constructor stores
`filePath` and calls `Start`, which spawns `Thread`. -/
def create (filePath : String) (isolate mainIsolate : σ) : Machine M σ :=
  { w := { filePath := filePath, shouldTerminate := false, isReady := false,
           worker_queuedEvents := [], main_queuedEvents := [],
           worker_eventHandlers := EventHandlerMap.empty,
           main_eventHandlers := EventHandlerMap.empty,
           isolate := isolate, mainIsolate := mainIsolate },
    pc := Pc.setupIsolate }

/-- Which dispatch loop made an invocation. -/
inductive Obs (M V : Type) where
  | worker (i : Invocation M V)
  | main (i : Invocation M V)

/-- One statement of `CWorker::Thread`. -/
def ThreadStep (E : Engine M V σ) (fuel : Nat) (t : Machine M σ) :
    Except Fault (Machine M σ × List (Obs M V)) :=
  match t.pc with
  | Pc.setupIsolate => Except.ok (⟨SetupIsolate t.w, Pc.setReady⟩, [])
  | Pc.setReady => Except.ok (⟨{ t.w with isReady := true }, Pc.emitLoad⟩, [])
  | Pc.emitLoad => Except.ok (⟨EmitToMain t.w "load" [], Pc.sleep⟩, [])
  | Pc.sleep => Except.ok (⟨t.w, Pc.eventLoop⟩, [])
  | Pc.eventLoop =>
    match EventLoop E fuel t.w with
    | Except.ok (w1, true, tr) => Except.ok (⟨w1, Pc.sleep⟩, tr.map Obs.worker)
    | Except.ok (w1, false, tr) => Except.ok (⟨w1, Pc.destroyIsolate⟩, tr.map Obs.worker)
    | Except.error e => Except.error e
  | Pc.destroyIsolate => Except.ok (⟨DestroyIsolate t.w, Pc.deleteThis⟩, [])
  | Pc.deleteThis => Except.ok (⟨t.w, Pc.finished⟩, [])
  | Pc.finished => Except.ok (t, [])

/-- The steps of a run: the worker thread executes its next statement, or the
main thread makes one call on the worker. -/
inductive Event (M : Type) where
  | thread
  | emitToWorker (eventName : String) (args : List M)
  | subscribeToWorker (eventName : String) (callback : Nat) (once : Bool)
  | subscribeToMain (eventName : String) (callback : Nat) (once : Bool)
  | destroy
  | handleMainEventQueue
  deriving DecidableEq, Repr

/-- A call made on the worker object from outside its thread.  After
`delete this` the object no longer exists, and a call on it is undefined. -/
def mainCall (t : Machine M σ) (r : Except Fault (State M σ × List (Obs M V))) :
    Except Fault (Machine M σ × List (Obs M V)) :=
  if t.pc = Pc.finished then Except.error Fault.undefinedBehaviour
  else
    match r with
    | Except.ok (w1, o) => Except.ok ({ t with w := w1 }, o)
    | Except.error e => Except.error e

/-- One step of a run. -/
def step (E : Engine M V σ) (fuel : Nat) (t : Machine M σ) :
    Event M → Except Fault (Machine M σ × List (Obs M V))
  | Event.thread => ThreadStep E fuel t
  | Event.emitToWorker eventName args =>
    mainCall t (Except.ok (EmitToWorker t.w eventName args, []))
  | Event.subscribeToWorker eventName callback once =>
    mainCall t (Except.ok (SubscribeToWorker t.w eventName callback once, []))
  | Event.subscribeToMain eventName callback once =>
    mainCall t (Except.ok (SubscribeToMain t.w eventName callback once, []))
  | Event.destroy => mainCall t (Except.ok (Destroy t.w, []))
  | Event.handleMainEventQueue =>
    mainCall t
      (match HandleMainEventQueue E fuel t.w with
       | Except.ok (w1, tr) => Except.ok (w1, tr.map Obs.main)
       | Except.error e => Except.error e)

/-- A run: the steps of a schedule, one after the other; the observations of
the steps are concatenated. -/
def run (E : Engine M V σ) (fuel : Nat) :
    Machine M σ → List (Event M) → Except Fault (Machine M σ × List (Obs M V))
  | t, [] => Except.ok (t, [])
  | t, ev :: evs =>
    match step E fuel t ev with
    | Except.error e => Except.error e
    | Except.ok (t1, o1) =>
      match run E fuel t1 evs with
      | Except.ok (t2, o2) => Except.ok (t2, o1 ++ o2)
      | Except.error e => Except.error e

/-! ## Vocabulary of the statements -/

/-- Well-formed registries: node addresses increase along the sequence and
lie below `fresh`.  The empty registry is well formed and `insert` keeps a
registry well formed. -/
def EventHandlerMap.WF (m : EventHandlerMap) : Prop :=
  m.nodes.Pairwise (fun a b => a.addr < b.addr) ∧ ∀ n ∈ m.nodes, n.addr < m.fresh

/-- The nodes a sequence of callback actions inserts, the first one at
address `fresh`. -/
def newNodes (fresh : Nat) : List (ScriptAction M) → List Node
  | [] => []
  | ScriptAction.subscribe k c o :: as => ⟨fresh, k, ⟨c, o⟩⟩ :: newNodes (fresh + 1) as
  | ScriptAction.emit _ _ :: as => newNodes fresh as

/-- The records a sequence of callback actions emits. -/
def emitted : List (ScriptAction M) → List (QueuedEvent M)
  | [] => []
  | ScriptAction.subscribe _ _ _ :: as => emitted as
  | ScriptAction.emit k args :: as => (k, args) :: emitted as

/-- The state of a side after the callback of node `n` has been called with
`args`. -/
def afterCall (E : Engine M V σ) (args : List (Local V)) (s : Side M σ) (n : Node) : Side M σ :=
  (E.Call s.isolate n.val.fn args).2.actions.foldl Side.perform
    { s with isolate := (E.Call s.isolate n.val.fn args).1 }

/-- The state after the statement `if(it->second.once) erase(it)`. -/
def eraseIfOnce (s : Side M σ) (once : Bool) (a : Nat) : Side M σ :=
  if once then { s with eventHandlers := s.eventHandlers.erase a } else s

/-- The records emitted by the callbacks of a trace, in order. -/
def emittedBy (tr : List (Invocation M V)) : List (QueuedEvent M) :=
  tr.flatMap (fun i => emitted i.result.actions)

/-- The event is a step of the worker thread. -/
def Event.isThread : Event M → Bool
  | Event.thread => true
  | _ => false

/-- The number of steps the worker thread takes in a schedule. -/
def threadSteps (evs : List (Event M)) : Nat :=
  evs.countP Event.isThread

/-- The records the `EmitToWorker` calls of a schedule push, in order. -/
def pushedToWorker : List (Event M) → List (QueuedEvent M)
  | [] => []
  | Event.emitToWorker eventName args :: evs => (eventName, args) :: pushedToWorker evs
  | _ :: evs => pushedToWorker evs

/-- The invocations made by the worker-side dispatch loop, among the
observations of a run. -/
def workerInvocations : List (Obs M V) → List (Invocation M V)
  | [] => []
  | Obs.worker i :: os => i :: workerInvocations os
  | Obs.main _ :: os => workerInvocations os

/-- The number of statements `Thread` has executed when it first stands at a
program point. -/
def Pc.rank : Pc → Nat
  | Pc.setupIsolate => 0
  | Pc.setReady => 1
  | Pc.emitLoad => 2
  | Pc.sleep => 3
  | Pc.eventLoop => 4
  | Pc.destroyIsolate => 5
  | Pc.deleteThis => 6
  | Pc.finished => 7

/-- How a worker stands after `k` steps of its thread, in a run that started
from a new worker: the program point is the `k`-th one as long as no tick has
been executed and lies in the polling loop or behind it afterwards, `isReady`
is set from the second step on, and nothing has been pushed onto the main
queue before the third step. -/
def Paced (t : Machine M σ) (k : Nat) : Prop :=
  t.pc.rank ≤ k ∧ (k ≤ 4 → t.pc.rank = k) ∧ (4 ≤ k → 3 ≤ t.pc.rank)
    ∧ t.w.isReady = decide (2 ≤ k) ∧ (k ≤ 2 → t.w.main_queuedEvents = [])

/-! ## Concrete engines and workers, for the examples -/

/-- An engine over string values whose callbacks do nothing; they fail when
`threw` is set. -/
def idleEngine (threw : Bool) : Engine String String Unit :=
  { MValueToV8 := id, Call := fun st _ _ => (st, ⟨threw, []⟩), PumpMessageLoop := id }

/-- An engine each of whose callbacks emits a "pong" record without
arguments to the other side. -/
def echoEngine : Engine String String Unit :=
  { MValueToV8 := id,
    Call := fun st _ _ => (st, ⟨false, [ScriptAction.emit "pong" []]⟩),
    PumpMessageLoop := id }

/-- A schedule: a `ping` handler is subscribed and a `ping` record emitted
before the thread starts; the thread then takes five steps, the fifth being
its first tick. -/
def pingSchedule : List (Event String) :=
  [Event.subscribeToWorker "ping" 1 false, Event.emitToWorker "ping" [],
    Event.thread, Event.thread, Event.thread, Event.thread, Event.thread]

/-- The members of a worker that has just been constructed. -/
def newWorker : State String Unit := (create "worker.js" () ()).w

/-! ## Facts about the registry -/

theorem EventHandlerMap.WF_empty : EventHandlerMap.empty.WF := by
  simp [EventHandlerMap.WF, EventHandlerMap.empty]

theorem EventHandlerMap.WF_insert {m : EventHandlerMap} (h : m.WF) (k : String)
    (v : EventCallback) : (m.insert k v).WF := by
  obtain ⟨h1, h2⟩ := h
  refine ⟨?_, ?_⟩
  · simp only [EventHandlerMap.insert]
    rw [List.pairwise_append]
    refine ⟨h1, by simp, ?_⟩
    intro a ha b hb
    simp at hb
    subst hb
    exact h2 a ha
  · intro n hn
    simp only [EventHandlerMap.insert, List.mem_append, List.mem_singleton] at hn ⊢
    rcases hn with hn | hn
    · exact Nat.lt_succ_of_lt (h2 n hn)
    · subst hn; simp

theorem find_addr_split (pre rest : List Node) (n : Node)
    (h : ∀ x ∈ pre, x.addr ≠ n.addr) :
    (pre ++ n :: rest).find? (fun x => x.addr == n.addr) = some n := by
  induction pre with
  | nil => simp
  | cons x xs ih =>
    have hx : (x.addr == n.addr) = false := by simpa using h x (by simp)
    rw [List.cons_append, List.find?_cons, hx]
    exact ih (fun y hy => h y (by simp [hy]))

theorem dropWhile_addr_split (pre rest : List Node) (n : Node)
    (h : ∀ x ∈ pre, x.addr ≠ n.addr) :
    (pre ++ n :: rest).dropWhile (fun x => x.addr != n.addr) = n :: rest := by
  induction pre with
  | nil => simp [List.dropWhile_cons]
  | cons x xs ih =>
    have hx : (x.addr != n.addr) = true := by simpa using h x (by simp)
    rw [List.cons_append, List.dropWhile_cons, hx]
    exact ih (fun y hy => h y (by simp [hy]))

theorem dropWhile_addr_absent (l : List Node) (a : Nat) (h : ∀ x ∈ l, x.addr ≠ a) :
    l.dropWhile (fun x => x.addr != a) = [] := by
  induction l with
  | nil => rfl
  | cons x xs ih =>
    have hx : (x.addr != a) = true := by simpa using h x (by simp)
    rw [List.dropWhile_cons, hx]
    exact ih (fun y hy => h y (by simp [hy]))

theorem EventHandlerMap.next_erase (m : EventHandlerMap) (a : Nat) :
    (m.erase a).next a = none := by
  have : (m.erase a).nodes.dropWhile (fun x => x.addr != a) = [] := by
    apply dropWhile_addr_absent
    intro x hx
    simp [EventHandlerMap.erase] at hx
    exact hx.2
  simp [EventHandlerMap.next, this]

theorem firstWithKey_cons_eq (k : String) (x : Node) (l : List Node) (h : x.key = k) :
    firstWithKey k (x :: l) = Iterator.node x.addr := by
  simp [firstWithKey, List.find?_cons, h]

theorem firstWithKey_cons_ne (k : String) (x : Node) (l : List Node) (h : x.key ≠ k) :
    firstWithKey k (x :: l) = firstWithKey k l := by
  simp [firstWithKey, List.find?_cons, h]

/-! ## Facts about the dispatch loops -/

theorem perform_foldl (acts : List (ScriptAction M)) (s : Side M σ) :
    acts.foldl Side.perform s =
      { queuedEvents := s.queuedEvents,
        eventHandlers := ⟨s.eventHandlers.nodes ++ newNodes s.eventHandlers.fresh acts,
                          s.eventHandlers.fresh + (newNodes s.eventHandlers.fresh acts).length⟩,
        isolate := s.isolate,
        peerQueue := s.peerQueue ++ emitted acts } := by
  induction acts generalizing s with
  | nil => simp [newNodes, emitted]
  | cons a as ih =>
    cases a with
    | subscribe k c o =>
      rw [List.foldl_cons, ih]
      simp [Side.perform, EventHandlerMap.insert, newNodes, emitted]
      omega
    | emit k args =>
      rw [List.foldl_cons, ih]
      simp [Side.perform, newNodes, emitted]

theorem callHandlers_end (E : Engine M V σ) (args : List (Local V)) (fuel : Nat) (s : Side M σ) :
    callHandlers E args Iterator.rangeEnd fuel Iterator.rangeEnd s = Except.ok (s, []) := by
  unfold callHandlers
  simp

theorem callHandlers_zero (E : Engine M V σ) (args : List (Local V)) (a : Nat) (s : Side M σ) :
    callHandlers E args Iterator.rangeEnd 0 (Iterator.node a) s = Except.error Fault.outOfFuel := by
  unfold callHandlers
  simp

/-- With an empty handle in the argument vector, the handler loop does not
get past the first node it stands on. -/
theorem callHandlers_emptyHandle (E : Engine M V σ) (args : List (Local V)) (fuel a : Nat)
    (s : Side M σ) (hargs : args.any Option.isNone = true) :
    ∀ r, callHandlers E args Iterator.rangeEnd fuel (Iterator.node a) s ≠ Except.ok r := by
  intro r
  cases fuel with
  | zero => rw [callHandlers_zero]; simp
  | succ fuel =>
    unfold callHandlers
    simp only [reduceCtorEq, if_false, hargs, if_true]
    split <;> simp

/-- A handler loop that made a call and returned was given a vector without
empty handle. -/
theorem callHandlers_args (E : Engine M V σ) (args : List (Local V)) (fuel a : Nat)
    (s : Side M σ) (r : Side M σ × List (Invocation M V))
    (h : callHandlers E args Iterator.rangeEnd fuel (Iterator.node a) s = Except.ok r) :
    args.any Option.isNone = false := by
  cases hargs : args.any Option.isNone with
  | false => rfl
  | true => exact absurd h (callHandlers_emptyHandle E args fuel a s hargs r)

/-- One iteration of the handler loop, written with `afterCall` and
`eraseIfOnce`. -/
theorem callHandlers_succ (E : Engine M V σ) (args : List (Local V)) (fuel a : Nat)
    (s : Side M σ) (hargs : args.any Option.isNone = false) :
    callHandlers E args Iterator.rangeEnd (fuel + 1) (Iterator.node a) s =
      match s.eventHandlers.deref a with
      | none => Except.error Fault.undefinedBehaviour
      | some n =>
        match (eraseIfOnce (afterCall E args s n) n.val.once a).eventHandlers.next a with
        | none => Except.error Fault.undefinedBehaviour
        | some it' =>
          match callHandlers E args Iterator.rangeEnd fuel it'
              (eraseIfOnce (afterCall E args s n) n.val.once a) with
          | Except.ok (s3, tr) =>
            Except.ok (s3, ⟨a, n.val.fn, args, (E.Call s.isolate n.val.fn args).2⟩ :: tr)
          | Except.error e => Except.error e := by
  conv => lhs; unfold callHandlers
  simp only [reduceCtorEq, if_false, hargs, Bool.false_eq_true]
  rfl

/-- The first iteration on a node: undefined when the vector holds an empty
handle. -/
theorem callHandlers_succ_emptyHandle (E : Engine M V σ) (args : List (Local V)) (fuel a : Nat)
    (s : Side M σ) (hargs : args.any Option.isNone = true) :
    callHandlers E args Iterator.rangeEnd (fuel + 1) (Iterator.node a) s
      = Except.error Fault.undefinedBehaviour := by
  unfold callHandlers
  simp only [reduceCtorEq, if_false, hargs, if_true]
  split <;> rfl

theorem callHandlers_once (E : Engine M V σ) (args : List (Local V)) (fuel : Nat)
    (s : Side M σ) (pre rest : List Node) (n : Node)
    (hn : s.eventHandlers.nodes = pre ++ n :: rest) (hpre : ∀ x ∈ pre, x.addr ≠ n.addr)
    (honce : n.val.once = true) :
    callHandlers E args Iterator.rangeEnd (fuel + 1) (Iterator.node n.addr) s
      = Except.error Fault.undefinedBehaviour := by
  cases hargs : args.any Option.isNone with
  | true => exact callHandlers_succ_emptyHandle E args fuel n.addr s hargs
  | false =>
    have hd : s.eventHandlers.deref n.addr = some n := by
      simp only [EventHandlerMap.deref, hn]
      exact find_addr_split pre rest n hpre
    rw [callHandlers_succ E args fuel n.addr s hargs, hd]
    simp [honce, eraseIfOnce, EventHandlerMap.next_erase]

theorem callHandlers_step (E : Engine M V σ) (args : List (Local V)) (fuel : Nat)
    (s : Side M σ) (pre rest : List Node) (n : Node)
    (hargs : args.any Option.isNone = false)
    (hn : s.eventHandlers.nodes = pre ++ n :: rest) (hpre : ∀ x ∈ pre, x.addr ≠ n.addr)
    (honce : n.val.once = false) :
    callHandlers E args Iterator.rangeEnd (fuel + 1) (Iterator.node n.addr) s =
      match callHandlers E args Iterator.rangeEnd fuel
          (firstWithKey n.key
            (rest ++ newNodes s.eventHandlers.fresh (E.Call s.isolate n.val.fn args).2.actions))
          (afterCall E args s n) with
      | Except.ok (s3, tr) =>
        Except.ok (s3, ⟨n.addr, n.val.fn, args, (E.Call s.isolate n.val.fn args).2⟩ :: tr)
      | Except.error e => Except.error e := by
  have hd : s.eventHandlers.deref n.addr = some n := by
    simp only [EventHandlerMap.deref, hn]
    exact find_addr_split pre rest n hpre
  have hnodes : (afterCall E args s n).eventHandlers.nodes
      = pre ++ n :: (rest ++ newNodes s.eventHandlers.fresh (E.Call s.isolate n.val.fn args).2.actions) := by
    simp [afterCall, perform_foldl, hn]
  have hnext : (afterCall E args s n).eventHandlers.next n.addr
      = some (firstWithKey n.key
          (rest ++ newNodes s.eventHandlers.fresh (E.Call s.isolate n.val.fn args).2.actions)) := by
    simp only [EventHandlerMap.next, hnodes]
    rw [dropWhile_addr_split pre _ n hpre]
  rw [callHandlers_succ E args fuel n.addr s hargs, hd]
  simp only [honce, eraseIfOnce, Bool.false_eq_true, if_false, hnext]

/-- The argument vector of an event with an argument holds an empty handle. -/
theorem makeArgs_any (E : Engine M V σ) (event : QueuedEvent M) (h : event.2 ≠ []) :
    (makeArgs E event).any Option.isNone = true := by
  cases hl : event.2 with
  | nil => exact absurd hl h
  | cons x xs => simp [makeArgs, hl, List.replicate_succ]

theorem afterCall_queuedEvents (E : Engine M V σ) (args : List (Local V)) (s : Side M σ)
    (n : Node) : (afterCall E args s n).queuedEvents = s.queuedEvents := by
  simp [afterCall, perform_foldl]

theorem afterCall_peerQueue (E : Engine M V σ) (args : List (Local V)) (s : Side M σ)
    (n : Node) : (afterCall E args s n).peerQueue
      = s.peerQueue ++ emitted (E.Call s.isolate n.val.fn args).2.actions := by
  simp [afterCall, perform_foldl]

theorem eraseIfOnce_queuedEvents (s : Side M σ) (o : Bool) (a : Nat) :
    (eraseIfOnce s o a).queuedEvents = s.queuedEvents := by
  cases o <;> rfl

theorem eraseIfOnce_peerQueue (s : Side M σ) (o : Bool) (a : Nat) :
    (eraseIfOnce s o a).peerQueue = s.peerQueue := by
  cases o <;> rfl

/-- Whatever the engine and the registry: a handler loop that returns leaves
the queue being drained as it was, and has appended to the other queue
exactly what the invoked callbacks emitted. -/
theorem callHandlers_frame (E : Engine M V σ) (args : List (Local V)) :
    ∀ (fuel : Nat) (it : Iterator) (s s' : Side M σ) (tr : List (Invocation M V)),
      callHandlers E args Iterator.rangeEnd fuel it s = Except.ok (s', tr) →
      s'.queuedEvents = s.queuedEvents ∧ s'.peerQueue = s.peerQueue ++ emittedBy tr := by
  intro fuel
  induction fuel with
  | zero =>
    intro it s s' tr h
    cases it with
    | rangeEnd =>
      rw [callHandlers_end] at h
      simp at h; obtain ⟨rfl, rfl⟩ := h; simp [emittedBy]
    | node a => rw [callHandlers_zero] at h; simp at h
  | succ fuel ih =>
    intro it s s' tr h
    cases it with
    | rangeEnd =>
      rw [callHandlers_end] at h
      simp at h; obtain ⟨rfl, rfl⟩ := h; simp [emittedBy]
    | node a =>
      rw [callHandlers_succ E args fuel a s (callHandlers_args E args _ a s _ h)] at h
      split at h
      · simp at h
      · rename_i n hd
        split at h
        · simp at h
        · rename_i it' hnext
          split at h
          · rename_i s3 tr3 hrec
            simp only [Except.ok.injEq, Prod.mk.injEq] at h
            obtain ⟨rfl, rfl⟩ := h
            obtain ⟨h1, h2⟩ := ih _ _ _ _ hrec
            rw [eraseIfOnce_queuedEvents, afterCall_queuedEvents] at h1
            rw [eraseIfOnce_peerQueue, afterCall_peerQueue] at h2
            refine ⟨h1, ?_⟩
            rw [h2]
            simp [emittedBy, List.flatMap_cons]
          · simp at h

theorem drainQueue_nil (E : Engine M V σ) (fuel n : Nat) (s : Side M σ)
    (h : s.queuedEvents = []) : drainQueue E fuel n s = Except.ok (s, []) := by
  unfold drainQueue
  simp [h]

theorem drainQueue_zero (E : Engine M V σ) (fuel : Nat) (s : Side M σ) (event : QueuedEvent M)
    (q : List (QueuedEvent M)) (h : s.queuedEvents = event :: q) :
    drainQueue E fuel 0 s = Except.error Fault.outOfFuel := by
  unfold drainQueue
  simp [h]

/-- One iteration of the queue loop. -/
theorem drainQueue_succ (E : Engine M V σ) (fuel n : Nat) (s : Side M σ) (event : QueuedEvent M)
    (q : List (QueuedEvent M)) (h : s.queuedEvents = event :: q) :
    drainQueue E fuel (n + 1) s =
      match callHandlers E (makeArgs E event) Iterator.rangeEnd fuel
          (firstWithKey event.1 s.eventHandlers.nodes) s with
      | Except.error e => Except.error e
      | Except.ok (s1, tr1) =>
        match drainQueue E fuel n { s1 with queuedEvents := s1.queuedEvents.tail } with
        | Except.ok (s2, tr2) => Except.ok (s2, tr1 ++ tr2)
        | Except.error e => Except.error e := by
  conv => lhs; unfold drainQueue
  simp only [h, EventHandlerMap.equal_range]

/-- Whatever the engine and the registry: when a pass returns, the queue it
drained is empty, and the other queue has received exactly what the invoked
callbacks emitted. -/
theorem drainQueue_frame (E : Engine M V σ) (fuel : Nat) :
    ∀ (n : Nat) (s s' : Side M σ) (tr : List (Invocation M V)),
      drainQueue E fuel n s = Except.ok (s', tr) →
      s'.queuedEvents = [] ∧ s'.peerQueue = s.peerQueue ++ emittedBy tr := by
  intro n
  induction n with
  | zero =>
    intro s s' tr h
    cases hq : s.queuedEvents with
    | nil =>
      rw [drainQueue_nil E fuel 0 s hq] at h
      simp at h; obtain ⟨rfl, rfl⟩ := h; simp [hq, emittedBy]
    | cons event q => rw [drainQueue_zero E fuel s event q hq] at h; simp at h
  | succ n ih =>
    intro s s' tr h
    cases hq : s.queuedEvents with
    | nil =>
      rw [drainQueue_nil E fuel _ s hq] at h
      simp at h; obtain ⟨rfl, rfl⟩ := h; simp [hq, emittedBy]
    | cons event q =>
      rw [drainQueue_succ E fuel n s event q hq] at h
      split at h
      · simp at h
      · rename_i s1 tr1 h1
        split at h
        · rename_i s2 tr2 h2
          simp only [Except.ok.injEq, Prod.mk.injEq] at h
          obtain ⟨rfl, rfl⟩ := h
          obtain ⟨_, hp1⟩ := callHandlers_frame E _ _ _ _ _ _ h1
          obtain ⟨hq2, hp2⟩ := ih _ _ _ h2
          refine ⟨hq2, ?_⟩
          rw [hp2]; simp only [hp1, emittedBy, List.flatMap_append, List.append_assoc]
        · simp at h

theorem firstWithKey_split (k : String) (l : List Node) (h : ∃ y ∈ l, y.key = k) :
    ∃ p n r, l = p ++ n :: r ∧ n.key = k ∧ (∀ y ∈ p, y.key ≠ k)
      ∧ firstWithKey k l = Iterator.node n.addr := by
  induction l with
  | nil => simp at h
  | cons x xs ih =>
    by_cases hk : x.key = k
    · exact ⟨[], x, xs, rfl, hk, by simp, firstWithKey_cons_eq k x xs hk⟩
    · have h' : ∃ y ∈ xs, y.key = k := by
        obtain ⟨y, hy, hyk⟩ := h
        rcases List.mem_cons.1 hy with rfl | hy
        · exact absurd hyk hk
        · exact ⟨y, hy, hyk⟩
      obtain ⟨p, n, r, h1, h2, h3, h4⟩ := ih h'
      refine ⟨x :: p, n, r, by simp [h1], h2, ?_, ?_⟩
      · intro y hy
        rcases List.mem_cons.1 hy with rfl | hy
        · exact hk
        · exact h3 y hy
      · rw [firstWithKey_cons_ne k x xs hk, h4]

theorem newNodes_bounds (fresh : Nat) (acts : List (ScriptAction M)) :
    (newNodes fresh acts).Pairwise (fun a b => a.addr < b.addr)
      ∧ ∀ n ∈ newNodes fresh acts,
          fresh ≤ n.addr ∧ n.addr < fresh + (newNodes fresh acts).length := by
  induction acts generalizing fresh with
  | nil => simp [newNodes]
  | cons a as ih =>
    cases a with
    | subscribe k c o =>
      obtain ⟨h1, h2⟩ := ih (fresh + 1)
      simp only [newNodes, List.pairwise_cons, List.mem_cons, List.length_cons]
      refine ⟨⟨?_, h1⟩, ?_⟩
      · intro b hb
        have := (h2 b hb).1
        omega
      · intro n hn
        rcases hn with rfl | hn
        · simp
        · have := h2 n hn
          omega
    | emit k args => simpa [newNodes] using ih fresh

theorem afterCall_nodes (E : Engine M V σ) (args : List (Local V)) (s : Side M σ) (n : Node) :
    (afterCall E args s n).eventHandlers.nodes
      = s.eventHandlers.nodes
          ++ newNodes s.eventHandlers.fresh (E.Call s.isolate n.val.fn args).2.actions := by
  simp [afterCall, perform_foldl]

theorem afterCall_WF (E : Engine M V σ) (args : List (Local V)) (s : Side M σ) (n : Node)
    (h : s.eventHandlers.WF) : (afterCall E args s n).eventHandlers.WF := by
  obtain ⟨h1, h2⟩ := h
  obtain ⟨b1, b2⟩ := newNodes_bounds s.eventHandlers.fresh (E.Call s.isolate n.val.fn args).2.actions
  refine ⟨?_, ?_⟩
  · rw [afterCall_nodes, List.pairwise_append]
    refine ⟨h1, b1, ?_⟩
    intro a ha b hb
    have := h2 a ha
    have := (b2 b hb).1
    omega
  · intro x hx
    rw [afterCall_nodes] at hx
    simp only [afterCall, perform_foldl]
    rcases List.mem_append.1 hx with hx | hx
    · have := h2 x hx
      omega
    · exact (b2 x hx).2

/-- Whatever the engine: a handler loop that returns has erased nothing; the
registry it leaves is the one it started from, followed by the nodes the
callbacks inserted. -/
theorem callHandlers_grows (E : Engine M V σ) (args : List (Local V)) :
    ∀ (fuel : Nat) (it : Iterator) (s s' : Side M σ) (tr : List (Invocation M V)),
      s.eventHandlers.WF →
      callHandlers E args Iterator.rangeEnd fuel it s = Except.ok (s', tr) →
      s'.eventHandlers.WF ∧ ∃ added, s'.eventHandlers.nodes = s.eventHandlers.nodes ++ added := by
  intro fuel
  induction fuel with
  | zero =>
    intro it s s' tr hwf h
    cases it with
    | rangeEnd =>
      rw [callHandlers_end] at h
      simp at h; obtain ⟨rfl, rfl⟩ := h; exact ⟨hwf, [], by simp⟩
    | node a => rw [callHandlers_zero] at h; simp at h
  | succ fuel ih =>
    intro it s s' tr hwf h
    cases it with
    | rangeEnd =>
      rw [callHandlers_end] at h
      simp at h; obtain ⟨rfl, rfl⟩ := h; exact ⟨hwf, [], by simp⟩
    | node a =>
      rw [callHandlers_succ E args fuel a s (callHandlers_args E args _ a s _ h)] at h
      split at h
      · simp at h
      · rename_i n hd
        cases ho : n.val.once with
        | true =>
          rw [ho] at h
          simp [eraseIfOnce, EventHandlerMap.next_erase] at h
        | false =>
          rw [ho] at h
          simp only [eraseIfOnce, Bool.false_eq_true, if_false] at h
          split at h
          · simp at h
          · split at h
            · rename_i s3 tr3 hrec
              simp only [Except.ok.injEq, Prod.mk.injEq] at h
              obtain ⟨rfl, rfl⟩ := h
              obtain ⟨w1, added, w2⟩ := ih _ _ _ _ (afterCall_WF E args s n hwf) hrec
              refine ⟨w1, newNodes s.eventHandlers.fresh
                (E.Call s.isolate n.val.fn args).2.actions ++ added, ?_⟩
              rw [w2, afterCall_nodes, List.append_assoc]
            · simp at h

/-- Whatever the engine: once the handler loop stands on a node of a range
in which a `once` node lies ahead (or at the position itself), it does not
return, whatever the fuel. -/
theorem callHandlers_once_ahead (E : Engine M V σ) (args : List (Local V)) (k : String) :
    ∀ (fuel : Nat) (s : Side M σ) (pre rest : List Node) (n : Node),
      s.eventHandlers.WF → s.eventHandlers.nodes = pre ++ n :: rest → n.key = k →
      (∃ y ∈ n :: rest, y.key = k ∧ y.val.once = true) →
      ∀ r, callHandlers E args Iterator.rangeEnd fuel (Iterator.node n.addr) s ≠ Except.ok r := by
  intro fuel
  induction fuel with
  | zero =>
    intro s pre rest n _ _ _ _ r
    rw [callHandlers_zero]; simp
  | succ fuel ih =>
    intro s pre rest n hwf hn hk hy r
    have hpre : ∀ x ∈ pre, x.addr ≠ n.addr := by
      intro x hx
      have := hwf.1
      rw [hn, List.pairwise_append] at this
      exact Nat.ne_of_lt (this.2.2 x hx n (List.mem_cons_self _ _))
    cases hargs : args.any Option.isNone with
    | true => exact callHandlers_emptyHandle E args _ n.addr s hargs r
    | false =>
    cases ho : n.val.once with
    | true => rw [callHandlers_once E args fuel s pre rest n hn hpre ho]; simp
    | false =>
      rw [callHandlers_step E args fuel s pre rest n hargs hn hpre ho]
      obtain ⟨y, hy, hyk, hyo⟩ := hy
      have hyr : y ∈ rest := by
        rcases List.mem_cons.1 hy with rfl | hy
        · rw [ho] at hyo; exact absurd hyo (by simp)
        · exact hy
      obtain ⟨p, n', r', h1, h2, h3, h4⟩ := firstWithKey_split k
        (rest ++ newNodes s.eventHandlers.fresh (E.Call s.isolate n.val.fn args).2.actions)
        ⟨y, List.mem_append_left _ hyr, hyk⟩
      rw [hk, h4]
      have hy' : y ∈ n' :: r' := by
        have : y ∈ p ++ n' :: r' := by rw [← h1]; exact List.mem_append_left _ hyr
        rcases List.mem_append.1 this with hp | hp
        · exact absurd hyk (h3 y hp)
        · exact hp
      have := ih (afterCall E args s n) (pre ++ n :: p) r' n' (afterCall_WF E args s n hwf)
        (by rw [afterCall_nodes, hn]; simp [h1]) h2 ⟨y, hy', hyk, hyo⟩
      intro hc
      split at hc
      · rename_i s3 tr3 hrec
        exact this _ hrec
      · simp at hc

/-- Whatever the engine and the fuel: a pass does not return when the queue
holds an event under whose name a node is registered, and the event carries
an argument or the node is `once`.  In the first case the call of the first
node of the range is handed an empty handle; in the second the loop steps
from the erased node. -/
theorem drainQueue_bad_queued (E : Engine M V σ) (fuel : Nat) :
    ∀ (n : Nat) (s : Side M σ), s.eventHandlers.WF →
      (∃ event ∈ s.queuedEvents, ∃ y ∈ s.eventHandlers.range event.1,
        event.2 ≠ [] ∨ y.val.once = true) →
      ∀ r, drainQueue E fuel n s ≠ Except.ok r := by
  intro n
  induction n with
  | zero =>
    intro s _ h r
    obtain ⟨event, he, _⟩ := h
    cases hq : s.queuedEvents with
    | nil => rw [hq] at he; simp at he
    | cons e q => rw [drainQueue_zero E fuel s e q hq]; simp
  | succ n ih =>
    intro s hwf h r
    obtain ⟨event, he, y, hy, hbad⟩ := h
    cases hq : s.queuedEvents with
    | nil => rw [hq] at he; simp at he
    | cons e q =>
      rw [drainQueue_succ E fuel n s e q hq]
      intro hc
      split at hc
      · simp at hc
      · rename_i s1 tr1 h1
        rw [hq] at he
        have hymem : y ∈ s.eventHandlers.nodes ∧ y.key = event.1 := by
          simpa [EventHandlerMap.range] using hy
        rcases List.mem_cons.1 he with rfl | he
        · obtain ⟨p, n', r', e1, e2, e3, e4⟩ := firstWithKey_split event.1 s.eventHandlers.nodes
            ⟨y, hymem.1, hymem.2⟩
          rw [e4] at h1
          rcases hbad with hargs | hyo
          · exact callHandlers_emptyHandle E _ fuel n'.addr s (makeArgs_any E event hargs) _ h1
          · have hy' : y ∈ n' :: r' := by
              have : y ∈ p ++ n' :: r' := by rw [← e1]; exact hymem.1
              rcases List.mem_append.1 this with hp | hp
              · exact absurd hymem.2 (e3 y hp)
              · exact hp
            exact callHandlers_once_ahead E _ event.1 fuel s p r' n' hwf e1 e2
              ⟨y, hy', hymem.2, hyo⟩ _ h1
        · obtain ⟨hwf1, added, hadd⟩ := callHandlers_grows E _ _ _ _ _ _ hwf h1
          obtain ⟨hq1, _⟩ := callHandlers_frame E _ _ _ _ _ _ h1
          have := ih { s1 with queuedEvents := s1.queuedEvents.tail } hwf1
            ⟨event, by simpa [hq1, hq] using he, y,
              by simp [EventHandlerMap.range, hadd, hymem.1, hymem.2], hbad⟩
          split at hc
          · rename_i s2 tr2 h2
            exact this _ h2
          · simp at hc

theorem HandleWorkerEventQueue_ok (E : Engine M V σ) (fuel : Nat) (w w' : State M σ)
    (tr : List (Invocation M V)) :
    HandleWorkerEventQueue E fuel w = Except.ok (w', tr) ↔
      ∃ s, drainQueue E fuel fuel (workerSide w) = Except.ok (s, tr) ∧ w' = putWorkerSide w s := by
  unfold HandleWorkerEventQueue HandleEventQueue
  split
  · rename_i s tr' h
    rw [h]
    constructor
    · intro hh
      simp only [Except.ok.injEq, Prod.mk.injEq] at hh
      exact ⟨s, by rw [hh.2], hh.1.symm⟩
    · rintro ⟨s2, h2, rfl⟩
      simp only [Except.ok.injEq, Prod.mk.injEq] at h2
      rw [h2.1, h2.2]
  · rename_i e h
    rw [h]
    simp

theorem HandleMainEventQueue_ok (E : Engine M V σ) (fuel : Nat) (w w' : State M σ)
    (tr : List (Invocation M V)) :
    HandleMainEventQueue E fuel w = Except.ok (w', tr) ↔
      ∃ s, drainQueue E fuel fuel (mainSide w) = Except.ok (s, tr) ∧ w' = putMainSide w s := by
  unfold HandleMainEventQueue HandleEventQueue
  split
  · rename_i s tr' h
    rw [h]
    constructor
    · intro hh
      simp only [Except.ok.injEq, Prod.mk.injEq] at hh
      exact ⟨s, by rw [hh.2], hh.1.symm⟩
    · rintro ⟨s2, h2, rfl⟩
      simp only [Except.ok.injEq, Prod.mk.injEq] at h2
      rw [h2.1, h2.2]
  · rename_i e h
    rw [h]
    simp

theorem foldl_EmitToWorker (emits : List (QueuedEvent M)) (w : State M σ) :
    emits.foldl (fun w event => EmitToWorker w event.1 event.2) w
      = { w with worker_queuedEvents := w.worker_queuedEvents ++ emits } := by
  induction emits generalizing w with
  | nil => simp
  | cons e es ih => rw [List.foldl_cons, ih]; simp [EmitToWorker]

theorem mainCall_ok (t t' : Machine M σ) (r : Except Fault (State M σ × List (Obs M V)))
    (o : List (Obs M V)) (h : mainCall t r = Except.ok (t', o)) :
    t.pc ≠ Pc.finished ∧ ∃ w1, r = Except.ok (w1, o) ∧ t' = { t with w := w1 } := by
  unfold mainCall at h
  split at h
  · simp at h
  · rename_i hpc
    split at h
    · rename_i w1 o1
      simp only [Except.ok.injEq, Prod.mk.injEq] at h
      obtain ⟨rfl, rfl⟩ := h
      exact ⟨hpc, w1, rfl, rfl⟩
    · simp at h

/-- The invocations of a main-side pass leave the flags, the worker registry
and the worker isolate alone; the main queue is emptied and the worker queue
receives what the callbacks emitted. -/
theorem HandleMainEventQueue_frame (E : Engine M V σ) (fuel : Nat) (w w' : State M σ)
    (tr : List (Invocation M V)) (h : HandleMainEventQueue E fuel w = Except.ok (w', tr)) :
    w'.shouldTerminate = w.shouldTerminate ∧ w'.isReady = w.isReady
      ∧ w'.worker_eventHandlers = w.worker_eventHandlers
      ∧ w'.main_queuedEvents = []
      ∧ w'.worker_queuedEvents = w.worker_queuedEvents ++ emittedBy tr
      ∧ (w.main_queuedEvents = [] → w' = w ∧ tr = []) := by
  obtain ⟨s, hs, rfl⟩ := (HandleMainEventQueue_ok E fuel w w' tr).1 h
  obtain ⟨h1, h2⟩ := drainQueue_frame E fuel fuel _ _ _ hs
  refine ⟨rfl, rfl, rfl, h1, h2, ?_⟩
  intro hq
  rw [drainQueue_nil E fuel fuel (mainSide w) hq] at hs
  simp only [Except.ok.injEq, Prod.mk.injEq] at hs
  obtain ⟨rfl, rfl⟩ := hs
  exact ⟨rfl, rfl⟩

/-- The invocations of a worker-side pass leave the flags and the main
registry alone; the worker queue is emptied and the main queue receives what
the callbacks emitted. -/
theorem HandleWorkerEventQueue_frame (E : Engine M V σ) (fuel : Nat) (w w' : State M σ)
    (tr : List (Invocation M V)) (h : HandleWorkerEventQueue E fuel w = Except.ok (w', tr)) :
    w'.shouldTerminate = w.shouldTerminate ∧ w'.isReady = w.isReady
      ∧ w'.main_eventHandlers = w.main_eventHandlers
      ∧ w'.worker_queuedEvents = []
      ∧ w'.main_queuedEvents = w.main_queuedEvents ++ emittedBy tr := by
  obtain ⟨s, hs, rfl⟩ := (HandleWorkerEventQueue_ok E fuel w w' tr).1 h
  obtain ⟨h1, h2⟩ := drainQueue_frame E fuel fuel _ _ _ hs
  exact ⟨rfl, rfl, rfl, h1, h2⟩

theorem EventLoop_terminating (E : Engine M V σ) (fuel : Nat) (w : State M σ)
    (h : w.shouldTerminate = true) : EventLoop E fuel w = Except.ok (w, false, []) := by
  simp [EventLoop, h]

theorem EventLoop_running (E : Engine M V σ) (fuel : Nat) (w : State M σ)
    (h : w.shouldTerminate = false) :
    EventLoop E fuel w =
      match HandleWorkerEventQueue E fuel w with
      | Except.ok (w1, tr) =>
        Except.ok ({ w1 with isolate := E.PumpMessageLoop w1.isolate }, true, tr)
      | Except.error e => Except.error e := by
  simp [EventLoop, h]

/-- What a tick leaves behind when it returns. -/
theorem EventLoop_frame (E : Engine M V σ) (fuel : Nat) (w w' : State M σ) (b : Bool)
    (tr : List (Invocation M V)) (h : EventLoop E fuel w = Except.ok (w', b, tr)) :
    w'.shouldTerminate = w.shouldTerminate ∧ w'.isReady = w.isReady
      ∧ b = !w.shouldTerminate
      ∧ w'.main_queuedEvents = w.main_queuedEvents ++ emittedBy tr
      ∧ (w.shouldTerminate = true → w' = w ∧ tr = []) := by
  cases hs : w.shouldTerminate with
  | true =>
    rw [EventLoop_terminating E fuel w hs] at h
    simp only [Except.ok.injEq, Prod.mk.injEq] at h
    obtain ⟨rfl, rfl, rfl⟩ := h
    simp [hs, emittedBy]
  | false =>
    rw [EventLoop_running E fuel w hs] at h
    split at h
    · rename_i w1 tr1 h1
      simp only [Except.ok.injEq, Prod.mk.injEq] at h
      obtain ⟨rfl, rfl, rfl⟩ := h
      obtain ⟨f1, f2, _, _, f5⟩ := HandleWorkerEventQueue_frame E fuel w w1 _ h1
      simp [f1, f2, f5, hs]
    · simp at h

/-- The effect of one statement of `Thread`, program point by program
point. -/
theorem ThreadStep_spec (E : Engine M V σ) (fuel : Nat) (t t' : Machine M σ)
    (o : List (Obs M V)) (h : ThreadStep E fuel t = Except.ok (t', o)) :
    (t.pc = Pc.setupIsolate ∧ t' = ⟨t.w, Pc.setReady⟩ ∧ o = [])
    ∨ (t.pc = Pc.setReady ∧ t' = ⟨{ t.w with isReady := true }, Pc.emitLoad⟩ ∧ o = [])
    ∨ (t.pc = Pc.emitLoad ∧ t' = ⟨EmitToMain t.w "load" [], Pc.sleep⟩ ∧ o = [])
    ∨ (t.pc = Pc.sleep ∧ t' = ⟨t.w, Pc.eventLoop⟩ ∧ o = [])
    ∨ (t.pc = Pc.eventLoop ∧ ∃ w1 b tr, EventLoop E fuel t.w = Except.ok (w1, b, tr)
        ∧ t' = ⟨w1, if b then Pc.sleep else Pc.destroyIsolate⟩ ∧ o = tr.map Obs.worker)
    ∨ (t.pc = Pc.destroyIsolate ∧ t' = ⟨t.w, Pc.deleteThis⟩ ∧ o = [])
    ∨ (t.pc = Pc.deleteThis ∧ t' = ⟨t.w, Pc.finished⟩ ∧ o = [])
    ∨ (t.pc = Pc.finished ∧ t' = t ∧ o = []) := by
  unfold ThreadStep at h
  cases hpc : t.pc <;> rw [hpc] at h <;> simp only [] at h
  case eventLoop =>
    right; right; right; right; left
    refine ⟨rfl, ?_⟩
    split at h
    · rename_i w1 tr he
      simp only [Except.ok.injEq, Prod.mk.injEq] at h
      exact ⟨w1, true, tr, he, by simp [h.1], h.2.symm⟩
    · rename_i w1 tr he
      simp only [Except.ok.injEq, Prod.mk.injEq] at h
      exact ⟨w1, false, tr, he, by simp [h.1], h.2.symm⟩
    · simp at h
  all_goals
    simp only [Except.ok.injEq, Prod.mk.injEq, SetupIsolate, DestroyIsolate] at h
    obtain ⟨rfl, rfl⟩ := h
    simp

/-- The effect of one step of a run, event by event. -/
theorem step_spec (E : Engine M V σ) (fuel : Nat) (t t' : Machine M σ) (ev : Event M)
    (o : List (Obs M V)) (h : step E fuel t ev = Except.ok (t', o)) :
    (ev = Event.thread ∧ ThreadStep E fuel t = Except.ok (t', o))
    ∨ (t.pc ≠ Pc.finished ∧ t'.pc = t.pc ∧
        ((∃ k a, ev = Event.emitToWorker k a ∧ t'.w = EmitToWorker t.w k a ∧ o = [])
        ∨ (∃ k c b, ev = Event.subscribeToWorker k c b
            ∧ t'.w = SubscribeToWorker t.w k c b ∧ o = [])
        ∨ (∃ k c b, ev = Event.subscribeToMain k c b
            ∧ t'.w = SubscribeToMain t.w k c b ∧ o = [])
        ∨ (ev = Event.destroy ∧ t'.w = Destroy t.w ∧ o = [])
        ∨ (ev = Event.handleMainEventQueue ∧ ∃ tr,
            HandleMainEventQueue E fuel t.w = Except.ok (t'.w, tr) ∧ o = tr.map Obs.main))) := by
  cases ev with
  | thread => left; exact ⟨rfl, h⟩
  | emitToWorker k a =>
    right
    simp only [step] at h
    obtain ⟨h1, w1, h2, rfl⟩ := mainCall_ok _ _ _ _ h
    simp only [Except.ok.injEq, Prod.mk.injEq] at h2
    exact ⟨h1, rfl, Or.inl ⟨k, a, rfl, h2.1.symm, h2.2.symm⟩⟩
  | subscribeToWorker k c b =>
    right
    simp only [step] at h
    obtain ⟨h1, w1, h2, rfl⟩ := mainCall_ok _ _ _ _ h
    simp only [Except.ok.injEq, Prod.mk.injEq] at h2
    exact ⟨h1, rfl, Or.inr (Or.inl ⟨k, c, b, rfl, h2.1.symm, h2.2.symm⟩)⟩
  | subscribeToMain k c b =>
    right
    simp only [step] at h
    obtain ⟨h1, w1, h2, rfl⟩ := mainCall_ok _ _ _ _ h
    simp only [Except.ok.injEq, Prod.mk.injEq] at h2
    exact ⟨h1, rfl, Or.inr (Or.inr (Or.inl ⟨k, c, b, rfl, h2.1.symm, h2.2.symm⟩))⟩
  | destroy =>
    right
    simp only [step] at h
    obtain ⟨h1, w1, h2, rfl⟩ := mainCall_ok _ _ _ _ h
    simp only [Except.ok.injEq, Prod.mk.injEq] at h2
    exact ⟨h1, rfl, Or.inr (Or.inr (Or.inr (Or.inl ⟨rfl, h2.1.symm, h2.2.symm⟩)))⟩
  | handleMainEventQueue =>
    right
    simp only [step] at h
    obtain ⟨h1, w1, h2, rfl⟩ := mainCall_ok _ _ _ _ h
    refine ⟨h1, rfl, Or.inr (Or.inr (Or.inr (Or.inr ⟨rfl, ?_⟩)))⟩
    split at h2
    · rename_i w2 tr he
      simp only [Except.ok.injEq, Prod.mk.injEq] at h2
      obtain ⟨rfl, rfl⟩ := h2
      exact ⟨tr, he, rfl⟩
    · simp at h2

theorem run_nil (E : Engine M V σ) (fuel : Nat) (t : Machine M σ) :
    run E fuel t [] = (Except.ok (t, []) : Except Fault (Machine M σ × List (Obs M V))) := rfl

theorem run_cons_ok (E : Engine M V σ) (fuel : Nat) (t t' : Machine M σ) (ev : Event M)
    (evs : List (Event M)) (o : List (Obs M V))
    (h : run E fuel t (ev :: evs) = Except.ok (t', o)) :
    ∃ t1 o1 o2, step E fuel t ev = Except.ok (t1, o1)
      ∧ run E fuel t1 evs = Except.ok (t', o2) ∧ o = o1 ++ o2 := by
  simp only [run] at h
  split at h
  · simp at h
  · rename_i t1 o1 h1
    split at h
    · rename_i t2 o2 h2
      simp only [Except.ok.injEq, Prod.mk.injEq] at h
      obtain ⟨rfl, rfl⟩ := h
      exact ⟨t1, o1, o2, h1, h2, rfl⟩
    · simp at h

theorem run_append_ok (E : Engine M V σ) (fuel : Nat) :
    ∀ (evs1 evs2 : List (Event M)) (t t' : Machine M σ) (o : List (Obs M V)),
      run E fuel t (evs1 ++ evs2) = Except.ok (t', o) →
      ∃ t1 o1 o2, run E fuel t evs1 = Except.ok (t1, o1)
        ∧ run E fuel t1 evs2 = Except.ok (t', o2) ∧ o = o1 ++ o2 := by
  intro evs1
  induction evs1 with
  | nil => intro evs2 t t' o h; exact ⟨t, [], o, rfl, h, rfl⟩
  | cons ev evs ih =>
    intro evs2 t t' o h
    obtain ⟨ta, oa, ob, h1, h2, rfl⟩ := run_cons_ok E fuel t t' ev (evs ++ evs2) o h
    obtain ⟨tb, oc, od, h3, h4, rfl⟩ := ih evs2 ta t' ob h2
    refine ⟨tb, oa ++ oc, od, ?_, h4, by simp⟩
    simp only [run, h1, h3]

theorem Paced_create (filePath : String) (isolate mainIsolate : σ) :
    Paced (create filePath isolate mainIsolate : Machine M σ) 0 := by
  simp [Paced, create, Pc.rank]

theorem threadSteps_cons (ev : Event M) (evs : List (Event M)) :
    threadSteps (ev :: evs) = threadSteps evs + (if ev.isThread then 1 else 0) := by
  simp [threadSteps, List.countP_cons]

theorem threadSteps_append (evs1 evs2 : List (Event M)) :
    threadSteps (evs1 ++ evs2) = threadSteps evs1 + threadSteps evs2 := by
  simp [threadSteps, List.countP_append]

theorem step_Paced (E : Engine M V σ) (fuel : Nat) (t t' : Machine M σ) (ev : Event M)
    (o : List (Obs M V)) (k : Nat) (h : step E fuel t ev = Except.ok (t', o))
    (hp : Paced t k) : Paced t' (k + (if ev.isThread then 1 else 0)) := by
  obtain ⟨p1, p2, p5, p3, p4⟩ := hp
  rcases step_spec E fuel t t' ev o h with ⟨rfl, hT⟩ | ⟨_, hpc, hcase⟩
  · simp only [Event.isThread, if_true]
    rcases ThreadStep_spec E fuel t t' o hT with ⟨hq, rfl, rfl⟩ | ⟨hq, rfl, rfl⟩ |
      ⟨hq, rfl, rfl⟩ | ⟨hq, rfl, rfl⟩ | ⟨hq, w1, b, tr, hE, rfl, rfl⟩ | ⟨hq, rfl, rfl⟩ |
      ⟨hq, rfl, rfl⟩ | ⟨hq, rfl, rfl⟩
    · rw [hq] at p1 p2 p5
      simp only [Pc.rank] at p1 p2 p5
      refine ⟨by simp only [Pc.rank]; omega, by intro; simp only [Pc.rank]; omega,
        by intro; simp only [Pc.rank]; omega, ?_, ?_⟩
      · rw [p3]; simp only [decide_eq_decide]; omega
      · intro hk; exact p4 (by omega)
    · rw [hq] at p1 p2 p5
      simp only [Pc.rank] at p1 p2 p5
      refine ⟨by simp only [Pc.rank]; omega, by intro; simp only [Pc.rank]; omega,
        by intro; simp only [Pc.rank]; omega, ?_, ?_⟩
      · simp only [true_eq_decide_iff]; omega
      · intro hk; exact p4 (by omega)
    · rw [hq] at p1 p2 p5
      simp only [Pc.rank] at p1 p2 p5
      refine ⟨by simp only [Pc.rank]; omega, by intro; simp only [Pc.rank]; omega,
        by intro; simp only [Pc.rank]; omega, ?_, ?_⟩
      · simp only [EmitToMain]; rw [p3]; simp only [decide_eq_decide]; omega
      · intro hk; omega
    · rw [hq] at p1 p2 p5
      simp only [Pc.rank] at p1 p2 p5
      refine ⟨by simp only [Pc.rank]; omega, by intro; simp only [Pc.rank]; omega,
        by intro; simp only [Pc.rank]; omega, ?_, ?_⟩
      · rw [p3]; simp only [decide_eq_decide]; omega
      · intro hk; omega
    · rw [hq] at p1 p2 p5
      simp only [Pc.rank] at p1 p2 p5
      obtain ⟨_, f2, _, _, _⟩ := EventLoop_frame E fuel t.w w1 b tr hE
      refine ⟨?_, by intro; omega, ?_, ?_, ?_⟩
      · cases b <;> simp only [Pc.rank, Bool.false_eq_true, if_false, if_true] <;> omega
      · intro; cases b <;> simp only [Pc.rank, Bool.false_eq_true, if_false, if_true] <;> omega
      · simp only []; rw [f2, p3]; simp only [decide_eq_decide]; omega
      · intro hk; omega
    · rw [hq] at p1 p2 p5
      simp only [Pc.rank] at p1 p2 p5
      refine ⟨by simp only [Pc.rank]; omega, by intro; omega,
        by intro; simp only [Pc.rank]; omega, ?_, ?_⟩
      · rw [p3]; simp only [decide_eq_decide]; omega
      · intro hk; omega
    · rw [hq] at p1 p2 p5
      simp only [Pc.rank] at p1 p2 p5
      refine ⟨by simp only [Pc.rank]; omega, by intro; omega,
        by intro; simp only [Pc.rank]; omega, ?_, ?_⟩
      · rw [p3]; simp only [decide_eq_decide]; omega
      · intro hk; omega
    · rw [hq] at p1 p2 p5
      simp only [Pc.rank] at p1 p2 p5
      refine ⟨by rw [hq]; simp only [Pc.rank]; omega, by intro; omega,
        by intro; rw [hq]; simp only [Pc.rank]; omega, ?_, ?_⟩
      · rw [p3]; simp only [decide_eq_decide]; omega
      · intro hk; omega
  · have hnt : ev.isThread = false := by
      rcases hcase with ⟨_, _, rfl, _⟩ | ⟨_, _, _, rfl, _⟩ | ⟨_, _, _, rfl, _⟩ | ⟨rfl, _⟩ |
        ⟨rfl, _⟩ <;> rfl
    simp only [hnt, Bool.false_eq_true, if_false, Nat.add_zero]
    have hready : t'.w.isReady = t.w.isReady ∧
        (t.w.main_queuedEvents = [] → t'.w.main_queuedEvents = []) := by
      rcases hcase with ⟨_, _, _, hw, _⟩ | ⟨_, _, _, _, hw, _⟩ | ⟨_, _, _, _, hw, _⟩ |
        ⟨_, hw, _⟩ | ⟨_, tr, hM, _⟩
      · rw [hw]; exact ⟨rfl, id⟩
      · rw [hw]; exact ⟨rfl, id⟩
      · rw [hw]; exact ⟨rfl, id⟩
      · rw [hw]; exact ⟨rfl, id⟩
      · obtain ⟨_, f2, _, f4, _⟩ := HandleMainEventQueue_frame E fuel t.w t'.w tr hM
        exact ⟨f2, fun _ => f4⟩
    exact ⟨by rw [hpc]; exact p1, by rw [hpc]; exact p2, by rw [hpc]; exact p5,
      by rw [hready.1]; exact p3, fun hk => hready.2 (p4 hk)⟩

theorem run_Paced (E : Engine M V σ) (fuel : Nat) :
    ∀ (evs : List (Event M)) (t t' : Machine M σ) (o : List (Obs M V)) (k : Nat),
      run E fuel t evs = Except.ok (t', o) → Paced t k → Paced t' (k + threadSteps evs) := by
  intro evs
  induction evs with
  | nil =>
    intro t t' o k h hp
    rw [run_nil] at h
    simp only [Except.ok.injEq, Prod.mk.injEq] at h
    obtain ⟨rfl, rfl⟩ := h
    simpa [threadSteps] using hp
  | cons ev evs ih =>
    intro t t' o k h hp
    obtain ⟨t1, o1, o2, h1, h2, rfl⟩ := run_cons_ok E fuel t t' ev evs o h
    have := ih t1 t' o2 _ h2 (step_Paced E fuel t t1 ev o1 k h1 hp)
    rw [threadSteps_cons]
    have e : k + (threadSteps evs + if ev.isThread = true then 1 else 0)
        = k + (if ev.isThread = true then 1 else 0) + threadSteps evs := by omega
    rw [e]; exact this

theorem workerInvocations_append (o1 o2 : List (Obs M V)) :
    workerInvocations (o1 ++ o2) = workerInvocations o1 ++ workerInvocations o2 := by
  induction o1 with
  | nil => rfl
  | cons x xs ih => cases x <;> simp [workerInvocations, ih]

theorem workerInvocations_worker (tr : List (Invocation M V)) :
    workerInvocations (tr.map (Obs.worker : Invocation M V → Obs M V)) = tr := by
  induction tr with
  | nil => rfl
  | cons x xs ih => simp [workerInvocations, ih]

theorem workerInvocations_main (tr : List (Invocation M V)) :
    workerInvocations (tr.map (Obs.main : Invocation M V → Obs M V)) = [] := by
  induction tr with
  | nil => rfl
  | cons x xs ih => simp [workerInvocations, ih]

theorem emittedBy_append (a b : List (Invocation M V)) :
    emittedBy (a ++ b) = emittedBy a ++ emittedBy b := by
  simp [emittedBy, List.flatMap_append]

theorem pushedToWorker_cons (ev : Event M) (evs : List (Event M)) :
    pushedToWorker (ev :: evs) = pushedToWorker [ev] ++ pushedToWorker evs := by
  cases ev <;> simp [pushedToWorker]

/-- Once `shouldTerminate` is set, a step keeps it set, calls no worker-side
handler and removes nothing from the worker queue. -/
theorem step_terminating (E : Engine M V σ) (fuel : Nat) (t t' : Machine M σ) (ev : Event M)
    (o : List (Obs M V)) (h : step E fuel t ev = Except.ok (t', o))
    (hs : t.w.shouldTerminate = true) :
    t'.w.shouldTerminate = true ∧ workerInvocations o = []
      ∧ ∃ more, t'.w.worker_queuedEvents = t.w.worker_queuedEvents ++ more := by
  rcases step_spec E fuel t t' ev o h with ⟨rfl, hT⟩ | ⟨_, _, hcase⟩
  · rcases ThreadStep_spec E fuel t t' o hT with ⟨_, rfl, rfl⟩ | ⟨_, rfl, rfl⟩ |
      ⟨_, rfl, rfl⟩ | ⟨_, rfl, rfl⟩ | ⟨_, w1, b, tr, hE, rfl, rfl⟩ | ⟨_, rfl, rfl⟩ |
      ⟨_, rfl, rfl⟩ | ⟨_, rfl, rfl⟩
    · exact ⟨hs, rfl, [], by simp⟩
    · exact ⟨hs, rfl, [], by simp⟩
    · exact ⟨hs, rfl, [], by simp [EmitToMain]⟩
    · exact ⟨hs, rfl, [], by simp⟩
    · obtain ⟨rfl, rfl⟩ := (EventLoop_frame E fuel t.w w1 b tr hE).2.2.2.2 hs
      exact ⟨hs, rfl, [], by simp⟩
    · exact ⟨hs, rfl, [], by simp⟩
    · exact ⟨hs, rfl, [], by simp⟩
    · exact ⟨hs, rfl, [], by simp⟩
  · rcases hcase with ⟨k, a, _, hw, rfl⟩ | ⟨_, _, _, _, hw, rfl⟩ | ⟨_, _, _, _, hw, rfl⟩ |
      ⟨_, hw, rfl⟩ | ⟨_, tr, hM, rfl⟩
    · rw [hw]; exact ⟨hs, rfl, [(k, a)], rfl⟩
    · rw [hw]; exact ⟨hs, rfl, [], by simp [SubscribeToWorker]⟩
    · rw [hw]; exact ⟨hs, rfl, [], by simp [SubscribeToMain]⟩
    · rw [hw]; exact ⟨rfl, rfl, [], by simp [Destroy]⟩
    · obtain ⟨f1, _, _, _, f5, _⟩ := HandleMainEventQueue_frame E fuel t.w t'.w tr hM
      exact ⟨by rw [f1]; exact hs, workerInvocations_main tr, _, f5⟩

theorem run_terminating (E : Engine M V σ) (fuel : Nat) :
    ∀ (evs : List (Event M)) (t t' : Machine M σ) (o : List (Obs M V)),
      run E fuel t evs = Except.ok (t', o) → t.w.shouldTerminate = true →
      t'.w.shouldTerminate = true ∧ workerInvocations o = []
        ∧ ∃ more, t'.w.worker_queuedEvents = t.w.worker_queuedEvents ++ more := by
  intro evs
  induction evs with
  | nil =>
    intro t t' o h hs
    rw [run_nil] at h
    simp only [Except.ok.injEq, Prod.mk.injEq] at h
    obtain ⟨rfl, rfl⟩ := h
    exact ⟨hs, rfl, [], by simp⟩
  | cons ev evs ih =>
    intro t t' o h hs
    obtain ⟨t1, o1, o2, h1, h2, rfl⟩ := run_cons_ok E fuel t t' ev evs o h
    obtain ⟨a1, a2, m1, a3⟩ := step_terminating E fuel t t1 ev o1 h1 hs
    obtain ⟨b1, b2, m2, b3⟩ := ih t1 t' o2 h2 a1
    exact ⟨b1, by rw [workerInvocations_append, a2, b2]; rfl, m1 ++ m2,
      by rw [b3, a3, List.append_assoc]⟩

/-- A step other than `Destroy` leaves `shouldTerminate` as it is. -/
theorem step_shouldTerminate (E : Engine M V σ) (fuel : Nat) (t t' : Machine M σ) (ev : Event M)
    (o : List (Obs M V)) (h : step E fuel t ev = Except.ok (t', o)) (hd : ev ≠ Event.destroy) :
    t'.w.shouldTerminate = t.w.shouldTerminate := by
  rcases step_spec E fuel t t' ev o h with ⟨rfl, hT⟩ | ⟨_, _, hcase⟩
  · rcases ThreadStep_spec E fuel t t' o hT with ⟨_, rfl, rfl⟩ | ⟨_, rfl, rfl⟩ |
      ⟨_, rfl, rfl⟩ | ⟨_, rfl, rfl⟩ | ⟨_, w1, b, tr, hE, rfl, rfl⟩ | ⟨_, rfl, rfl⟩ |
      ⟨_, rfl, rfl⟩ | ⟨_, rfl, rfl⟩
    any_goals rfl
    exact (EventLoop_frame E fuel t.w w1 b tr hE).1
  · rcases hcase with ⟨_, _, _, hw, _⟩ | ⟨_, _, _, _, hw, _⟩ | ⟨_, _, _, _, hw, _⟩ |
      ⟨rfl, _, _⟩ | ⟨_, tr, hM, _⟩
    · rw [hw]; rfl
    · rw [hw]; rfl
    · rw [hw]; rfl
    · exact absurd rfl hd
    · exact (HandleMainEventQueue_frame E fuel t.w t'.w tr hM).1

theorem run_shouldTerminate (E : Engine M V σ) (fuel : Nat) :
    ∀ (evs : List (Event M)) (t t' : Machine M σ) (o : List (Obs M V)),
      run E fuel t evs = Except.ok (t', o) → Event.destroy ∉ evs →
      t'.w.shouldTerminate = t.w.shouldTerminate := by
  intro evs
  induction evs with
  | nil =>
    intro t t' o h _
    rw [run_nil] at h
    simp only [Except.ok.injEq, Prod.mk.injEq] at h
    obtain ⟨rfl, rfl⟩ := h
    rfl
  | cons ev evs ih =>
    intro t t' o h hd
    obtain ⟨t1, o1, o2, h1, h2, rfl⟩ := run_cons_ok E fuel t t' ev evs o h
    rw [ih t1 t' o2 h2 (fun hm => hd (List.mem_cons_of_mem _ hm)),
      step_shouldTerminate E fuel t t1 ev o1 h1 (fun he => hd (by rw [he]; simp))]

/-- What one step does to the main queue: a main-side pass drains it; the
third statement of `Thread` pushes the `load` record; a tick pushes what its
callbacks emitted.  No worker-side handler is called before the first
tick. -/
theorem step_mainQueue (E : Engine M V σ) (fuel : Nat) (t t' : Machine M σ) (ev : Event M)
    (o : List (Obs M V)) (k : Nat) (h : step E fuel t ev = Except.ok (t', o))
    (hp : Paced t k) :
    (∃ drained, drained ++ t'.w.main_queuedEvents
        = t.w.main_queuedEvents
          ++ (if k = 2 ∧ ev.isThread = true then [("load", [])] else [])
          ++ emittedBy (workerInvocations o)
      ∧ (ev ≠ Event.handleMainEventQueue → drained = []))
      ∧ (k + (if ev.isThread then 1 else 0) ≤ 4 → workerInvocations o = []) := by
  obtain ⟨p1, p2, p5, _, _⟩ := hp
  rcases step_spec E fuel t t' ev o h with ⟨rfl, hT⟩ | ⟨_, _, hcase⟩
  · simp only [Event.isThread, if_true, and_true]
    rcases ThreadStep_spec E fuel t t' o hT with ⟨hq, rfl, rfl⟩ | ⟨hq, rfl, rfl⟩ |
      ⟨hq, rfl, rfl⟩ | ⟨hq, rfl, rfl⟩ | ⟨hq, w1, b, tr, hE, rfl, rfl⟩ | ⟨hq, rfl, rfl⟩ |
      ⟨hq, rfl, rfl⟩ | ⟨hq, rfl, rfl⟩
    all_goals (rw [hq] at p1 p2 p5; simp only [Pc.rank] at p1 p2 p5)
    · have : k ≠ 2 := by omega
      exact ⟨⟨[], by simp [this, workerInvocations, emittedBy], fun _ => rfl⟩, fun _ => rfl⟩
    · have : k ≠ 2 := by omega
      exact ⟨⟨[], by simp [this, workerInvocations, emittedBy], fun _ => rfl⟩, fun _ => rfl⟩
    · have : k = 2 := by omega
      exact ⟨⟨[], by simp [this, workerInvocations, emittedBy, EmitToMain], fun _ => rfl⟩,
        fun _ => rfl⟩
    · have : k ≠ 2 := by omega
      exact ⟨⟨[], by simp [this, workerInvocations, emittedBy], fun _ => rfl⟩, fun _ => rfl⟩
    · have : k ≠ 2 := by omega
      obtain ⟨_, _, _, f4, _⟩ := EventLoop_frame E fuel t.w w1 b tr hE
      exact ⟨⟨[], by simp [this, workerInvocations_worker, f4], fun _ => rfl⟩,
        fun hk => by omega⟩
    · have : k ≠ 2 := by omega
      exact ⟨⟨[], by simp [this, workerInvocations, emittedBy], fun _ => rfl⟩, fun _ => rfl⟩
    · have : k ≠ 2 := by omega
      exact ⟨⟨[], by simp [this, workerInvocations, emittedBy], fun _ => rfl⟩, fun _ => rfl⟩
    · have : k ≠ 2 := by omega
      exact ⟨⟨[], by simp [this, workerInvocations, emittedBy], fun _ => rfl⟩, fun _ => rfl⟩
  · rcases hcase with ⟨_, _, rfl, hw, rfl⟩ | ⟨_, _, _, rfl, hw, rfl⟩ |
      ⟨_, _, _, rfl, hw, rfl⟩ | ⟨rfl, hw, rfl⟩ | ⟨rfl, tr, hM, rfl⟩
    · rw [hw]
      exact ⟨⟨[], by simp [Event.isThread, workerInvocations, emittedBy, EmitToWorker],
        fun _ => rfl⟩, fun _ => rfl⟩
    · rw [hw]
      exact ⟨⟨[], by simp [Event.isThread, workerInvocations, emittedBy, SubscribeToWorker],
        fun _ => rfl⟩, fun _ => rfl⟩
    · rw [hw]
      exact ⟨⟨[], by simp [Event.isThread, workerInvocations, emittedBy, SubscribeToMain],
        fun _ => rfl⟩, fun _ => rfl⟩
    · rw [hw]
      exact ⟨⟨[], by simp [Event.isThread, workerInvocations, emittedBy, Destroy],
        fun _ => rfl⟩, fun _ => rfl⟩
    · obtain ⟨_, _, _, f4, _, _⟩ := HandleMainEventQueue_frame E fuel t.w t'.w tr hM
      refine ⟨⟨t.w.main_queuedEvents, ?_, fun hc => absurd rfl hc⟩,
        fun _ => workerInvocations_main tr⟩
      rw [f4, workerInvocations_main]
      simp [Event.isThread, emittedBy]

theorem run_mainQueue (E : Engine M V σ) (fuel : Nat) :
    ∀ (evs : List (Event M)) (t t' : Machine M σ) (o : List (Obs M V)) (k : Nat),
      run E fuel t evs = Except.ok (t', o) → Paced t k →
      (∃ drained, drained ++ t'.w.main_queuedEvents
          = t.w.main_queuedEvents
            ++ (if k ≤ 2 ∧ 3 ≤ k + threadSteps evs then [("load", [])] else [])
            ++ emittedBy (workerInvocations o)
        ∧ (Event.handleMainEventQueue ∉ evs → drained = []))
        ∧ (k + threadSteps evs ≤ 4 → workerInvocations o = []) := by
  intro evs
  induction evs with
  | nil =>
    intro t t' o k h _
    rw [run_nil] at h
    simp only [Except.ok.injEq, Prod.mk.injEq] at h
    obtain ⟨rfl, rfl⟩ := h
    have : ¬ (k ≤ 2 ∧ 3 ≤ k + threadSteps ([] : List (Event M))) := by
      simp [threadSteps]; omega
    exact ⟨⟨[], by simp [this, workerInvocations, emittedBy], fun _ => rfl⟩, fun _ => rfl⟩
  | cons ev evs ih =>
    intro t t' o k h hp
    obtain ⟨t1, o1, o2, h1, h2, rfl⟩ := run_cons_ok E fuel t t' ev evs o h
    obtain ⟨⟨d1, a1, a3⟩, a2⟩ := step_mainQueue E fuel t t1 ev o1 k h1 hp
    obtain ⟨⟨d2, b1, b3⟩, b2⟩ := ih t1 t' o2 _ h2 (step_Paced E fuel t t1 ev o1 k h1 hp)
    rw [threadSteps_cons]
    have key2 : emittedBy (workerInvocations o1)
          ++ (if k + (if ev.isThread = true then 1 else 0) ≤ 2
                ∧ 3 ≤ k + (if ev.isThread = true then 1 else 0) + threadSteps evs
              then [(("load", []) : QueuedEvent M)] else [])
        = (if k + (if ev.isThread = true then 1 else 0) ≤ 2
                ∧ 3 ≤ k + (if ev.isThread = true then 1 else 0) + threadSteps evs
              then [(("load", []) : QueuedEvent M)] else [])
          ++ emittedBy (workerInvocations o1) := by
      by_cases hc : k + (if ev.isThread = true then 1 else 0) ≤ 2
          ∧ 3 ≤ k + (if ev.isThread = true then 1 else 0) + threadSteps evs
      · rw [a2 (by omega)]
        simp [emittedBy]
      · simp [hc]
    have key1 : (if k = 2 ∧ ev.isThread = true then [(("load", []) : QueuedEvent M)] else [])
          ++ (if k + (if ev.isThread = true then 1 else 0) ≤ 2
                ∧ 3 ≤ k + (if ev.isThread = true then 1 else 0) + threadSteps evs
              then [(("load", []) : QueuedEvent M)] else [])
        = (if k ≤ 2 ∧ 3 ≤ k + (threadSteps evs + if ev.isThread = true then 1 else 0)
              then [(("load", []) : QueuedEvent M)] else []) := by
      by_cases ht : ev.isThread = true
      · simp only [ht, if_true, and_true]
        by_cases hk2 : k = 2
        · subst hk2
          have e1 : 3 ≤ 2 + (threadSteps evs + 1) := by omega
          simp [e1]
        · have e : (k + 1 ≤ 2 ∧ 3 ≤ k + 1 + threadSteps evs)
              ↔ (k ≤ 2 ∧ 3 ≤ k + (threadSteps evs + 1)) := by omega
          simp only [hk2, if_false, List.nil_append, e]
      · simp only [ht, Bool.false_eq_true, and_false, if_false, List.nil_append, Nat.add_zero]
    refine ⟨⟨d1 ++ d2, ?_, ?_⟩, ?_⟩
    · rw [List.append_assoc, b1, ← List.append_assoc, ← List.append_assoc, a1,
        workerInvocations_append, emittedBy_append, ← key1]
      simp only [List.append_assoc]
      rw [← List.append_assoc (emittedBy (workerInvocations o1)), key2]
      simp only [List.append_assoc]
    · intro hd
      rw [a3 (fun he => hd (by rw [he]; simp)), b3 (fun hm => hd (List.mem_cons_of_mem _ hm))]
      rfl
    · intro hk
      rw [workerInvocations_append, a2 (by omega), b2 (by omega)]
      rfl

/-- Before the first tick, a step removes nothing from the worker queue; it
appends the record of an `EmitToWorker` call, or what the callbacks of a
main-side pass emitted (nothing while the main queue is still empty). -/
theorem step_workerQueue (E : Engine M V σ) (fuel : Nat) (t t' : Machine M σ) (ev : Event M)
    (o : List (Obs M V)) (k : Nat) (h : step E fuel t ev = Except.ok (t', o))
    (hp : Paced t k) (hk : k + (if ev.isThread then 1 else 0) ≤ 4) :
    ∃ later, t'.w.worker_queuedEvents = t.w.worker_queuedEvents ++ later
      ∧ (ev ≠ Event.handleMainEventQueue ∨ k ≤ 2 → later = pushedToWorker [ev]) := by
  obtain ⟨p1, p2, _, _, p4⟩ := hp
  rcases step_spec E fuel t t' ev o h with ⟨rfl, hT⟩ | ⟨_, _, hcase⟩
  · simp only [Event.isThread, if_true] at hk
    have hr := p2 (by omega)
    rcases ThreadStep_spec E fuel t t' o hT with ⟨hq, rfl, rfl⟩ | ⟨hq, rfl, rfl⟩ |
      ⟨hq, rfl, rfl⟩ | ⟨hq, rfl, rfl⟩ | ⟨hq, w1, b, tr, hE, rfl, rfl⟩ | ⟨hq, rfl, rfl⟩ |
      ⟨hq, rfl, rfl⟩ | ⟨hq, rfl, rfl⟩
    all_goals (rw [hq] at hr; simp only [Pc.rank] at hr)
    any_goals omega
    all_goals exact ⟨[], by simp [EmitToMain], fun _ => rfl⟩
  · rcases hcase with ⟨a, b, rfl, hw, rfl⟩ | ⟨_, _, _, rfl, hw, rfl⟩ |
      ⟨_, _, _, rfl, hw, rfl⟩ | ⟨rfl, hw, rfl⟩ | ⟨rfl, tr, hM, rfl⟩
    · rw [hw]; exact ⟨[(a, b)], rfl, fun _ => rfl⟩
    · rw [hw]; exact ⟨[], by simp [SubscribeToWorker], fun _ => rfl⟩
    · rw [hw]; exact ⟨[], by simp [SubscribeToMain], fun _ => rfl⟩
    · rw [hw]; exact ⟨[], by simp [Destroy], fun _ => rfl⟩
    · obtain ⟨_, _, _, _, f5, f6⟩ := HandleMainEventQueue_frame E fuel t.w t'.w tr hM
      refine ⟨emittedBy tr, f5, ?_⟩
      intro hc
      rcases hc with hc | hc
      · exact absurd rfl hc
      · obtain ⟨_, rfl⟩ := f6 (p4 hc)
        rfl

theorem run_workerQueue (E : Engine M V σ) (fuel : Nat) :
    ∀ (evs : List (Event M)) (t t' : Machine M σ) (o : List (Obs M V)) (k : Nat),
      run E fuel t evs = Except.ok (t', o) → Paced t k → k + threadSteps evs ≤ 4 →
      ∃ later, t'.w.worker_queuedEvents = t.w.worker_queuedEvents ++ later
        ∧ (Event.handleMainEventQueue ∉ evs ∨ k + threadSteps evs ≤ 2 →
            later = pushedToWorker evs) := by
  intro evs
  induction evs with
  | nil =>
    intro t t' o k h _ _
    rw [run_nil] at h
    simp only [Except.ok.injEq, Prod.mk.injEq] at h
    obtain ⟨rfl, rfl⟩ := h
    exact ⟨[], by simp, fun _ => rfl⟩
  | cons ev evs ih =>
    intro t t' o k h hp hk
    rw [threadSteps_cons] at hk
    obtain ⟨t1, o1, o2, h1, h2, rfl⟩ := run_cons_ok E fuel t t' ev evs o h
    obtain ⟨l1, a1, a2⟩ := step_workerQueue E fuel t t1 ev o1 k h1 hp (by omega)
    obtain ⟨l2, b1, b2⟩ := ih t1 t' o2 _ h2 (step_Paced E fuel t t1 ev o1 k h1 hp) (by omega)
    refine ⟨l1 ++ l2, by rw [b1, a1, List.append_assoc], ?_⟩
    intro hc
    rw [threadSteps_cons] at hc
    rw [pushedToWorker_cons, a2, b2]
    · rcases hc with hc | hc
      · exact Or.inl (fun hm => hc (List.mem_cons_of_mem _ hm))
      · exact Or.inr (by omega)
    · rcases hc with hc | hc
      · exact Or.inl (fun he => hc (by rw [he]; simp))
      · exact Or.inr (by omega)

/-- Before the first tick every step other than a main-side pass returns,
and it calls no handler. -/
theorem step_total (E : Engine M V σ) (fuel : Nat) (t : Machine M σ) (ev : Event M) (k : Nat)
    (hp : Paced t k) (hk : k + (if ev.isThread then 1 else 0) ≤ 4)
    (hd : ev ≠ Event.handleMainEventQueue) :
    ∃ t', step E fuel t ev = (Except.ok (t', []) : Except Fault (Machine M σ × List (Obs M V))) := by
  obtain ⟨_, p2, _, _, _⟩ := hp
  have hfin : t.pc ≠ Pc.finished := by
    intro hc
    have := p2 (by omega)
    rw [hc] at this
    simp only [Pc.rank] at this
    omega
  cases ev with
  | thread =>
    simp only [Event.isThread, if_true] at hk
    have hr := p2 (by omega)
    simp only [step, ThreadStep]
    cases hpc : t.pc <;> rw [hpc] at hr <;> simp only [Pc.rank] at hr
    any_goals omega
    all_goals exact ⟨_, rfl⟩
  | emitToWorker a b =>
    exact ⟨{ t with w := EmitToWorker t.w a b }, by simp [step, mainCall, hfin]⟩
  | subscribeToWorker a b c =>
    exact ⟨{ t with w := SubscribeToWorker t.w a b c }, by simp [step, mainCall, hfin]⟩
  | subscribeToMain a b c =>
    exact ⟨{ t with w := SubscribeToMain t.w a b c }, by simp [step, mainCall, hfin]⟩
  | destroy => exact ⟨{ t with w := Destroy t.w }, by simp [step, mainCall, hfin]⟩
  | handleMainEventQueue => exact absurd rfl hd

theorem run_total (E : Engine M V σ) (fuel : Nat) :
    ∀ (evs : List (Event M)) (t : Machine M σ) (k : Nat),
      Paced t k → k + threadSteps evs ≤ 4 → Event.handleMainEventQueue ∉ evs →
      ∃ t', run E fuel t evs
        = (Except.ok (t', []) : Except Fault (Machine M σ × List (Obs M V))) := by
  intro evs
  induction evs with
  | nil => intro t k _ _ _; exact ⟨t, rfl⟩
  | cons ev evs ih =>
    intro t k hp hk hd
    rw [threadSteps_cons] at hk
    obtain ⟨t1, h1⟩ := step_total E fuel t ev k hp (by omega) (fun he => hd (by rw [he]; simp))
    obtain ⟨t2, h2⟩ := ih t1 _ (step_Paced E fuel t t1 ev [] k h1 hp) (by omega)
      (fun hm => hd (List.mem_cons_of_mem _ hm))
    exact ⟨t2, by simp only [run, h1, h2, List.append_nil]⟩

/-- Before the first tick, a step keeps the worker registry well formed. -/
theorem step_workerRegistry (E : Engine M V σ) (fuel : Nat) (t t' : Machine M σ) (ev : Event M)
    (o : List (Obs M V)) (k : Nat) (h : step E fuel t ev = Except.ok (t', o))
    (hp : Paced t k) (hk : k + (if ev.isThread then 1 else 0) ≤ 4)
    (hwf : t.w.worker_eventHandlers.WF) : t'.w.worker_eventHandlers.WF := by
  obtain ⟨p1, p2, _, _, p4⟩ := hp
  rcases step_spec E fuel t t' ev o h with ⟨rfl, hT⟩ | ⟨_, _, hcase⟩
  · simp only [Event.isThread, if_true] at hk
    have hr := p2 (by omega)
    rcases ThreadStep_spec E fuel t t' o hT with ⟨hq, rfl, rfl⟩ | ⟨hq, rfl, rfl⟩ |
      ⟨hq, rfl, rfl⟩ | ⟨hq, rfl, rfl⟩ | ⟨hq, w1, b, tr, hE, rfl, rfl⟩ | ⟨hq, rfl, rfl⟩ |
      ⟨hq, rfl, rfl⟩ | ⟨hq, rfl, rfl⟩
    all_goals (rw [hq] at hr; simp only [Pc.rank] at hr)
    any_goals omega
    all_goals exact hwf
  · rcases hcase with ⟨a, b, rfl, hw, rfl⟩ | ⟨_, _, _, rfl, hw, rfl⟩ |
      ⟨_, _, _, rfl, hw, rfl⟩ | ⟨rfl, hw, rfl⟩ | ⟨rfl, tr, hM, rfl⟩
    · rw [hw]; exact hwf
    · rw [hw]; exact EventHandlerMap.WF_insert hwf _ _
    · rw [hw]; exact hwf
    · rw [hw]; exact hwf
    · rw [(HandleMainEventQueue_frame E fuel t.w t'.w tr hM).2.2.1]; exact hwf

theorem run_workerRegistry (E : Engine M V σ) (fuel : Nat) :
    ∀ (evs : List (Event M)) (t t' : Machine M σ) (o : List (Obs M V)) (k : Nat),
      run E fuel t evs = Except.ok (t', o) → Paced t k → k + threadSteps evs ≤ 4 →
      t.w.worker_eventHandlers.WF → t'.w.worker_eventHandlers.WF := by
  intro evs
  induction evs with
  | nil =>
    intro t t' o k h _ _ hwf
    rw [run_nil] at h
    simp only [Except.ok.injEq, Prod.mk.injEq] at h
    obtain ⟨rfl, rfl⟩ := h
    exact hwf
  | cons ev evs ih =>
    intro t t' o k h hp hk hwf
    rw [threadSteps_cons] at hk
    obtain ⟨t1, o1, o2, h1, h2, rfl⟩ := run_cons_ok E fuel t t' ev evs o h
    exact ih t1 t' o2 _ h2 (step_Paced E fuel t t1 ev o1 k h1 hp) (by omega)
      (step_workerRegistry E fuel t t1 ev o1 k h1 hp (by omega) hwf)

/-! ## Facts about the examples and further consequences -/

theorem makeArgs_length (E : Engine M V σ) (event : QueuedEvent M) :
    (makeArgs E event).length = 2 * event.2.length := by
  simp [makeArgs]; omega

/-- A registry keeps the callbacks subscribed under one name in the order of
the calls, whatever is subscribed under other names in between. -/
theorem range_insert (m : EventHandlerMap) (k k' : String) (v : EventCallback) :
    (m.insert k v).range k'
      = if k = k' then m.range k' ++ [⟨m.fresh, k, v⟩] else m.range k' := by
  by_cases h : k = k'
  · simp [EventHandlerMap.insert, EventHandlerMap.range, List.filter_append, h]
  · simp [EventHandlerMap.insert, EventHandlerMap.range, List.filter_append, h]

theorem Pc.rank_eq_two (pc : Pc) (h : pc.rank = 2) : pc = Pc.emitLoad := by
  cases pc <;> first | rfl | simp [Pc.rank] at h

theorem Pc.rank_eq_four (pc : Pc) (h : pc.rank = 4) : pc = Pc.eventLoop := by
  cases pc <;> first | rfl | simp [Pc.rank] at h

/-! ## The claims -/

/-- C1 (the code departs from it).  Take any sequence of `EmitToWorker`
calls and any well-formed worker registry.  When one of the pushed records
has a handler registered under its name and either carries an argument or
that handler is `once`, the `HandleWorkerEventQueue` pass returns for no
engine and no fuel: the record is not dispatched as the claim says, the
records behind it are not dispatched at all, and the queue is never emptied.
In the first case `Call` is handed the empty handles that precede the
converted arguments in the vector; in the second the loop steps from the node
it has just erased. -/
theorem pushed_record_stops_the_pass (E : Engine M V σ) (w : State M σ)
    (emits : List (QueuedEvent M)) (fuel : Nat) (hwf : w.worker_eventHandlers.WF)
    (h : ∃ event ∈ emits, ∃ y ∈ w.worker_eventHandlers.range event.1,
      event.2 ≠ [] ∨ y.val.once = true) :
    ∀ r, HandleWorkerEventQueue E fuel
        (emits.foldl (fun w event => EmitToWorker w event.1 event.2) w) ≠ Except.ok r := by
  rintro ⟨w', tr⟩ hr
  rw [foldl_EmitToWorker] at hr
  obtain ⟨s, hs, _⟩ := (HandleWorkerEventQueue_ok _ _ _ _ _).1 hr
  obtain ⟨event, he, y, hy, hbad⟩ := h
  exact drainQueue_bad_queued E fuel fuel _ hwf
    ⟨event, List.mem_append_right _ he, y, hy, hbad⟩ _ hs

/-- C1, an instance: two `greet` records with one argument each and a `tick`
record between them are pushed on the empty queue of a new worker with two
`greet` handlers and a `tick` handler.  The pass is undefined at the first
call: no record is dispatched as the claim says and the queue is not
emptied. -/
theorem pushed_record_stops_the_pass_witness :
    HandleWorkerEventQueue (idleEngine false) 6
        ([("greet", ["a"]), ("tick", []), ("greet", ["b"])].foldl
          (fun w event => EmitToWorker w event.1 event.2)
          (SubscribeToWorker (SubscribeToWorker (SubscribeToWorker newWorker
            "greet" 7 false) "tick" 8 false) "greet" 9 false))
      = Except.error Fault.undefinedBehaviour
    ∧ ∀ r, HandleWorkerEventQueue (idleEngine false) 6
        ([("greet", ["a"]), ("tick", []), ("greet", ["b"])].foldl
          (fun w event => EmitToWorker w event.1 event.2)
          (SubscribeToWorker (SubscribeToWorker (SubscribeToWorker newWorker
            "greet" 7 false) "tick" 8 false) "greet" 9 false))
        ≠ Except.ok r :=
  ⟨rfl, pushed_record_stops_the_pass (idleEngine false)
    (SubscribeToWorker (SubscribeToWorker (SubscribeToWorker newWorker
      "greet" 7 false) "tick" 8 false) "greet" 9 false)
    [("greet", ["a"]), ("tick", []), ("greet", ["b"])] 6
    (EventHandlerMap.WF_insert (EventHandlerMap.WF_insert (EventHandlerMap.WF_insert
      EventHandlerMap.WF_empty _ _) _ _) _ _)
    ⟨("greet", ["a"]), by simp, ⟨0, "greet", ⟨7, false⟩⟩, by decide, Or.inl (by simp)⟩⟩

/-- C2 (the code departs from it).  After `SubscribeToWorker(name, H, true)`
on a new worker and one or more `EmitToWorker(name, ...)` calls, the
`HandleWorkerEventQueue` pass is undefined.  When the first record carries no
argument, `H` is called for it, `erase(it)` removes its node, and the `it++`
that follows steps from the erased node; when it carries an argument, the
call itself is handed an empty handle.  This holds for every engine, every
event name, every number of emissions and every fuel that allows one
iteration. -/
theorem once_handler_first_firing_undefined (E : Engine M V σ) (filePath : String)
    (isolate mainIsolate : σ) (eventName : String) (H : Nat) (payload : List M)
    (more : List (List M)) (fuel : Nat) :
    HandleWorkerEventQueue E (fuel + 1)
        ((payload :: more).foldl (fun w args => EmitToWorker w eventName args)
          (SubscribeToWorker (create filePath isolate mainIsolate).w eventName H true))
      = Except.error Fault.undefinedBehaviour := by
  have hfold : ∀ (l : List (List M)) (w : State M σ),
      l.foldl (fun w args => EmitToWorker w eventName args) w
        = { w with worker_queuedEvents :=
              w.worker_queuedEvents ++ l.map (fun a => (eventName, a)) } := by
    intro l
    induction l with
    | nil => intro w; simp
    | cons a as ih => intro w; rw [List.foldl_cons, ih]; simp [EmitToWorker]
  rw [hfold]
  unfold HandleWorkerEventQueue HandleEventQueue
  rw [drainQueue_succ E (fuel + 1) fuel _ (eventName, payload)
    (more.map (fun a => (eventName, a))) (by simp [workerSide, SubscribeToWorker, create])]
  have hnodes : (workerSide ({ SubscribeToWorker (create filePath isolate mainIsolate).w
      eventName H true with worker_queuedEvents :=
        (SubscribeToWorker (create filePath isolate mainIsolate).w eventName H
            true).worker_queuedEvents
          ++ (payload :: more).map (fun a => (eventName, a)) } : State M σ)).eventHandlers.nodes
      = [] ++ (⟨0, eventName, ⟨H, true⟩⟩ : Node) :: [] := rfl
  rw [hnodes]
  have := callHandlers_once E (makeArgs E (eventName, payload)) fuel _ [] []
    ⟨0, eventName, ⟨H, true⟩⟩ hnodes (by simp) rfl
  simp only [List.nil_append, firstWithKey_cons_eq eventName ⟨0, eventName, ⟨H, true⟩⟩ [] rfl]
  rw [this]

/-- C3 (the code departs from it).  The argument vector built for a handler
is not the arguments of the record: for a record with `n` arguments it has
length `2 * n`; its first `n` elements are empty handles and the converted
arguments follow them.  In the scenario of the claim the vectors built for
the two `greet` records are `[empty, "a"]` and `[empty, "b"]`, and the pass
does not get past the call for the first record: `Call` is handed an empty
handle, which is undefined.  This holds for every engine and every fuel that
allows one iteration, in `HandleWorkerEventQueue` and in
`HandleMainEventQueue` alike. -/
theorem argument_vector_doubled :
    (∀ (E : Engine M V σ) (event : QueuedEvent M),
      (makeArgs E event).length = 2 * event.2.length
      ∧ (makeArgs E event).take event.2.length = List.replicate event.2.length none
      ∧ (makeArgs E event).drop event.2.length
          = event.2.map (fun arg => some (E.MValueToV8 arg)))
    ∧ (∀ (E : Engine String V σ),
        makeArgs E ("greet", ["a"]) = [none, some (E.MValueToV8 "a")]
        ∧ makeArgs E ("greet", ["b"]) = [none, some (E.MValueToV8 "b")])
    ∧ (∀ (E : Engine String V σ) (filePath : String) (isolate mainIsolate : σ) (fuel : Nat),
        HandleWorkerEventQueue E (fuel + 1)
            (EmitToWorker (EmitToWorker
              (SubscribeToWorker (create filePath isolate mainIsolate).w "greet" 7 false)
              "greet" ["a"]) "greet" ["b"])
          = Except.error Fault.undefinedBehaviour
        ∧ HandleMainEventQueue E (fuel + 1)
            (EmitToMain (EmitToMain
              (SubscribeToMain (create filePath isolate mainIsolate).w "greet" 7 false)
              "greet" ["a"]) "greet" ["b"])
          = Except.error Fault.undefinedBehaviour) := by
  refine ⟨?_, fun E => ⟨rfl, rfl⟩, fun E filePath isolate mainIsolate fuel => ⟨rfl, rfl⟩⟩
  intro E event
  refine ⟨makeArgs_length E event, ?_, ?_⟩
  · simp [makeArgs, List.take_append_eq_append_take]
  · simp [makeArgs, List.drop_append_eq_append_drop]

/-- C4 (the code departs from it).  The registry does keep the handlers of a
name in the order of their Subscribe calls, whatever is subscribed under
other names in between (first part).  But the dispatch does not run them all:
with `H1` (once) and then `H2` subscribed under "x", and a handler of "y"
subscribed in between, dispatching a record "x" calls `H1`, erases its node
and then steps from the erased node, which is undefined; no call of `H2`
follows in order.  The same holds on the main side. -/
theorem registration_order_cut_by_once :
    (∀ (m : EventHandlerMap) (k k' : String) (v : EventCallback),
      (m.insert k v).range k'
        = if k = k' then m.range k' ++ [⟨m.fresh, k, v⟩] else m.range k')
    ∧ HandleWorkerEventQueue (idleEngine false) 8
        (EmitToWorker (SubscribeToWorker (SubscribeToWorker (SubscribeToWorker newWorker
          "x" 1 true) "y" 3 false) "x" 2 false) "x" [])
      = Except.error Fault.undefinedBehaviour
    ∧ HandleMainEventQueue (idleEngine false) 8
        (EmitToMain (SubscribeToMain (SubscribeToMain (SubscribeToMain newWorker
          "x" 1 true) "y" 3 false) "x" 2 false) "x" [])
      = Except.error Fault.undefinedBehaviour :=
  ⟨range_insert, rfl, rfl⟩

/-- C5.  In every run that starts from a new worker (empty main queue),
whatever the main thread calls in between: the records pushed onto the main
queue so far (those the main thread has drained, followed by those still
queued) are nothing as long as the thread has taken at most two steps, and
from the third step on `("load", [])` followed by the records that the
callbacks of the ticks emitted; so `load`, with no arguments, is the first
record pushed and `Thread` itself pushes no second record.  The step that
pushes it is the third, taken when `isReady` is already set; no worker-side
handler is called during the first four steps, and the thread stands at a
tick after four steps at the earliest, so `load` is pushed before the first
tick.  The steps before the first tick always return. -/
theorem load_signal (E : Engine M V σ) (fuel : Nat) (filePath : String)
    (isolate mainIsolate : σ) (evs : List (Event M)) (t : Machine M σ) (obs : List (Obs M V))
    (hrun : run E fuel (create filePath isolate mainIsolate) evs = Except.ok (t, obs)) :
    (∃ drained, drained ++ t.w.main_queuedEvents
        = (if 3 ≤ threadSteps evs then [("load", [])] else [])
          ++ emittedBy (workerInvocations obs)
      ∧ (Event.handleMainEventQueue ∉ evs → drained = []))
    ∧ (threadSteps evs ≤ 4 → workerInvocations obs = [])
    ∧ (threadSteps evs = 2 → t.pc = Pc.emitLoad ∧ t.w.isReady = true)
    ∧ (t.pc = Pc.eventLoop → 4 ≤ threadSteps evs)
    ∧ (∀ evs' : List (Event M), Event.handleMainEventQueue ∉ evs' → threadSteps evs' ≤ 4 →
        ∃ t', run E fuel (create filePath isolate mainIsolate) evs'
          = (Except.ok (t', []) : Except Fault (Machine M σ × List (Obs M V)))) := by
  have hc : Paced (create filePath isolate mainIsolate : Machine M σ) 0 :=
    Paced_create filePath isolate mainIsolate
  have hp := run_Paced E fuel evs _ t obs 0 hrun hc
  obtain ⟨⟨d, a1, a3⟩, a2⟩ := run_mainQueue E fuel evs _ t obs 0 hrun hc
  simp only [Nat.zero_add] at hp a1 a2
  obtain ⟨p1, p2, _, p3, _⟩ := hp
  refine ⟨⟨d, ?_, a3⟩, a2, ?_, ?_, ?_⟩
  · rw [a1]; simp [create]
  · intro h2
    exact ⟨Pc.rank_eq_two _ (by rw [p2 (by omega), h2]), by rw [p3, h2]; rfl⟩
  · intro hpc
    rw [hpc] at p1
    exact p1
  · intro evs' hnd hk
    exact run_total E fuel evs' _ 0 hc (by omega) hnd

/-- C5, an instance: a `ping` handler that emits `pong` is subscribed, a
`ping` record is emitted, and the thread takes five steps, the fifth being
the first tick; the main queue then holds `load` and, behind it, the `pong`
emitted by the callback. -/
theorem load_signal_witness :
    ∃ t obs, run echoEngine 3 (create "worker.js" () ()) pingSchedule = Except.ok (t, obs)
      ∧ t.w.main_queuedEvents = [("load", []), ("pong", [])]
      ∧ (∃ drained, drained ++ t.w.main_queuedEvents
          = (if 3 ≤ threadSteps pingSchedule then [("load", [])] else [])
            ++ emittedBy (workerInvocations obs)
        ∧ (Event.handleMainEventQueue ∉ pingSchedule → drained = []))
      ∧ (threadSteps pingSchedule ≤ 4 → workerInvocations obs = [])
      ∧ (threadSteps pingSchedule = 2 → t.pc = Pc.emitLoad ∧ t.w.isReady = true)
      ∧ (t.pc = Pc.eventLoop → 4 ≤ threadSteps pingSchedule)
      ∧ (∀ evs' : List (Event String), Event.handleMainEventQueue ∉ evs' →
          threadSteps evs' ≤ 4 →
          ∃ t', run echoEngine 3 (create "worker.js" () ()) evs'
            = (Except.ok (t', []) :
                Except Fault (Machine String Unit × List (Obs String String)))) :=
  ⟨_, _, rfl, rfl, load_signal echoEngine 3 "worker.js" () () pingSchedule _ _ rfl⟩

/-- C6.  After `Destroy` has been called (on any worker, at any program point
of its thread), in every run that follows, whatever the other calls, further
`Destroy` calls included: `shouldTerminate` is still set; no worker-side
handler has been called; nothing has been removed from the worker queue; an
`EventLoop` tick returns `false` and leaves the whole state, both registries
included, as it is; and when the thread stands at its tick, the tick takes it
out of the polling loop, to `DestroyIsolate`. -/
theorem termination_request_is_final (E : Engine M V σ) (fuel : Nat) (t0 : Machine M σ)
    (evs : List (Event M)) (t : Machine M σ) (obs : List (Obs M V))
    (hrun : run E fuel ⟨Destroy t0.w, t0.pc⟩ evs = Except.ok (t, obs)) :
    t.w.shouldTerminate = true
      ∧ workerInvocations obs = []
      ∧ (∃ more, t.w.worker_queuedEvents = t0.w.worker_queuedEvents ++ more)
      ∧ EventLoop E fuel t.w = Except.ok (t.w, false, [])
      ∧ (t.pc = Pc.eventLoop →
          ThreadStep E fuel t = Except.ok (⟨t.w, Pc.destroyIsolate⟩, [])) := by
  obtain ⟨a1, a2, a3⟩ := run_terminating E fuel evs _ t obs hrun rfl
  refine ⟨a1, a2, a3, EventLoop_terminating E fuel t.w a1, ?_⟩
  intro hpc
  simp [ThreadStep, hpc, EventLoop_terminating E fuel t.w a1]

/-- C6, an instance: a worker with a `ping` handler and a queued `ping`
record is destroyed while its thread sleeps; `Destroy` is called again,
another record is emitted, and the thread moves on to its tick. -/
theorem termination_request_is_final_witness :
    ∃ t obs,
      run echoEngine 3
          ⟨Destroy (EmitToWorker (SubscribeToWorker newWorker "ping" 1 false) "ping" []), Pc.sleep⟩
          [Event.destroy, Event.emitToWorker "ping" ["late"], Event.thread] = Except.ok (t, obs)
      ∧ t.w.shouldTerminate = true
      ∧ workerInvocations obs = []
      ∧ (∃ more, t.w.worker_queuedEvents
          = (EmitToWorker (SubscribeToWorker newWorker "ping" 1 false) "ping" []).worker_queuedEvents
            ++ more)
      ∧ EventLoop echoEngine 3 t.w = Except.ok (t.w, false, [])
      ∧ (t.pc = Pc.eventLoop →
          ThreadStep echoEngine 3 t = Except.ok (⟨t.w, Pc.destroyIsolate⟩, [])) :=
  ⟨_, _, rfl, termination_request_is_final echoEngine 3
    ⟨EmitToWorker (SubscribeToWorker newWorker "ping" 1 false) "ping" [], Pc.sleep⟩
    [Event.destroy, Event.emitToWorker "ping" ["late"], Event.thread] _ _ rfl⟩

/-- C7 (the code departs from it).  Take any run from a new worker, without
`Destroy`, made of a part `evs1` in which the thread takes at most one step
(so `isReady` is still false: the calls of `evs1` are made before Ready) and
a part `evs2` that brings the thread to four steps in all, that is, to its
first `EventLoop` tick.  What the claim says of the queue holds: at the end
of `evs1` the worker queue holds exactly the records pushed by the
`EmitToWorker` calls of `evs1`, in push order; at the first tick `isReady` is
set, termination is not requested, and the worker queue still starts with
those records, followed by what was pushed later.  But the tick does not
always dispatch them: when one of the records pushed before Ready has a
handler registered under its name at the tick and either carries an argument
or that handler is `once`, the tick returns for no engine and no fuel.
Moreover, in every run from a new worker `isReady` is exactly "the thread has
taken at least two steps": it is set once, by the second step, and the thread
stands at a tick, the only place where `HandleWorkerEventQueue` is called,
after four steps at the earliest. -/
theorem first_tick_stops_on_early_record (E : Engine M V σ) (fuel : Nat) (filePath : String)
    (isolate mainIsolate : σ) (evs1 evs2 : List (Event M))
    (hdestroy : Event.destroy ∉ evs1 ++ evs2) (h1 : threadSteps evs1 ≤ 1)
    (h4 : threadSteps (evs1 ++ evs2) = 4) (t : Machine M σ) (obs : List (Obs M V))
    (hrun : run E fuel (create filePath isolate mainIsolate) (evs1 ++ evs2) = Except.ok (t, obs)) :
    (∃ t1 o1, run E fuel (create filePath isolate mainIsolate) evs1 = Except.ok (t1, o1)
        ∧ t1.w.isReady = false ∧ t1.w.worker_queuedEvents = pushedToWorker evs1)
    ∧ t.pc = Pc.eventLoop ∧ t.w.isReady = true ∧ t.w.shouldTerminate = false
    ∧ (∃ later, t.w.worker_queuedEvents = pushedToWorker evs1 ++ later
        ∧ (Event.handleMainEventQueue ∉ evs2 → later = pushedToWorker evs2))
    ∧ ((∃ event ∈ pushedToWorker evs1, ∃ y ∈ t.w.worker_eventHandlers.range event.1,
          event.2 ≠ [] ∨ y.val.once = true) →
        ∀ r, ThreadStep E fuel t ≠ Except.ok r)
    ∧ (∀ evs' t' o', run E fuel (create filePath isolate mainIsolate) evs' = Except.ok (t', o') →
        t'.w.isReady = decide (2 ≤ threadSteps evs')
        ∧ (t'.pc = Pc.eventLoop → 4 ≤ threadSteps evs')) := by
  have hc : Paced (create filePath isolate mainIsolate : Machine M σ) 0 :=
    Paced_create filePath isolate mainIsolate
  obtain ⟨t1, o1, o2, r1, r2, rfl⟩ := run_append_ok E fuel evs1 evs2 _ t obs hrun
  have hp1 := run_Paced E fuel evs1 _ t1 o1 0 r1 hc
  have hp := run_Paced E fuel (evs1 ++ evs2) _ t (o1 ++ o2) 0 hrun hc
  simp only [Nat.zero_add] at hp1 hp
  rw [h4] at hp
  rw [threadSteps_append] at h4
  obtain ⟨q1, hq1, hq1'⟩ := run_workerQueue E fuel evs1 _ t1 o1 0 r1 hc (by omega)
  obtain ⟨q2, hq2, hq2'⟩ := run_workerQueue E fuel evs2 t1 t o2 _ r2 hp1 (by omega)
  have hq1e : t1.w.worker_queuedEvents = pushedToWorker evs1 := by
    rw [hq1, hq1' (Or.inr (by omega))]; simp [create]
  have hterm : t.w.shouldTerminate = false := by
    rw [run_shouldTerminate E fuel (evs1 ++ evs2) _ t (o1 ++ o2) hrun hdestroy]; rfl
  have hwf : t.w.worker_eventHandlers.WF :=
    run_workerRegistry E fuel (evs1 ++ evs2) _ t (o1 ++ o2) 0 hrun hc
      (by rw [threadSteps_append]; omega) EventHandlerMap.WF_empty
  obtain ⟨_, p2, _, p3, _⟩ := hp
  have hpc : t.pc = Pc.eventLoop := Pc.rank_eq_four _ (p2 (by omega))
  refine ⟨⟨t1, o1, r1, ?_, hq1e⟩, hpc, by rw [p3]; rfl, hterm,
    ⟨q2, by rw [hq2, hq1e], fun hnd => hq2' (Or.inl hnd)⟩, ?_, ?_⟩
  · rw [hp1.2.2.2.1]; simp only [decide_eq_false_iff_not]; omega
  · rintro ⟨event, he, y, hy, hbad⟩ ⟨t', o⟩ hT
    rcases ThreadStep_spec E fuel t t' o hT with ⟨hq, _⟩ | ⟨hq, _⟩ | ⟨hq, _⟩ | ⟨hq, _⟩ |
      ⟨_, w1, b, tr, hE, _, _⟩ | ⟨hq, _⟩ | ⟨hq, _⟩ | ⟨hq, _⟩
    all_goals try (rw [hpc] at hq; exact absurd hq (by decide))
    rw [EventLoop_running E fuel t.w hterm] at hE
    split at hE
    · rename_i w2 tr2 hH
      obtain ⟨s, hs, _⟩ := (HandleWorkerEventQueue_ok _ _ _ _ _).1 hH
      refine drainQueue_bad_queued E fuel fuel _ hwf ⟨event, ?_, y, hy, hbad⟩ _ hs
      show event ∈ t.w.worker_queuedEvents
      rw [hq2, hq1e]
      exact List.mem_append_left _ he
    · simp at hE
  · intro evs' t' o' hr'
    have hp' := run_Paced E fuel evs' _ t' o' 0 hr' hc
    simp only [Nat.zero_add] at hp'
    refine ⟨hp'.2.2.2.1, ?_⟩
    intro hpc'
    have := hp'.1
    rw [hpc'] at this
    exact this

/-- C7, an instance: a `once` handler of "a" is subscribed and a record "a"
is emitted before `SetupIsolate`; the thread then takes four steps.  The
record is still queued when the thread stands at its first tick, and the tick
is undefined: the handler is called, its node erased, and the loop steps from
the erased node. -/
theorem first_tick_stops_on_early_record_witness :
    ∃ t obs,
      run (idleEngine false) 4 (create "worker.js" () ())
          ([Event.subscribeToWorker "a" 1 true, Event.emitToWorker "a" [], Event.thread]
            ++ [Event.thread, Event.thread, Event.thread]) = Except.ok (t, obs)
      ∧ t.w.worker_queuedEvents = [("a", [])]
      ∧ ThreadStep (idleEngine false) 4 t
          = (Except.error Fault.undefinedBehaviour :
              Except Fault (Machine String Unit × List (Obs String String)))
      ∧ (∃ t1 o1, run (idleEngine false) 4 (create "worker.js" () ())
            [Event.subscribeToWorker "a" 1 true, Event.emitToWorker "a" [], Event.thread]
            = Except.ok (t1, o1)
          ∧ t1.w.isReady = false
          ∧ t1.w.worker_queuedEvents
              = pushedToWorker [Event.subscribeToWorker "a" 1 true,
                  Event.emitToWorker "a" ([] : List String), Event.thread])
      ∧ t.pc = Pc.eventLoop ∧ t.w.isReady = true ∧ t.w.shouldTerminate = false
      ∧ (∃ later, t.w.worker_queuedEvents
            = pushedToWorker [Event.subscribeToWorker "a" 1 true,
                Event.emitToWorker "a" ([] : List String), Event.thread] ++ later
          ∧ (Event.handleMainEventQueue ∉
                ([Event.thread, Event.thread, Event.thread] : List (Event String)) →
              later = pushedToWorker
                ([Event.thread, Event.thread, Event.thread] : List (Event String))))
      ∧ ((∃ event ∈ pushedToWorker [Event.subscribeToWorker "a" 1 true,
              Event.emitToWorker "a" ([] : List String), Event.thread],
            ∃ y ∈ t.w.worker_eventHandlers.range event.1,
              event.2 ≠ [] ∨ y.val.once = true) →
          ∀ r, ThreadStep (idleEngine false) 4 t ≠ Except.ok r)
      ∧ (∀ evs' t' o', run (idleEngine false) 4 (create "worker.js" () ()) evs'
            = Except.ok (t', o') →
          t'.w.isReady = decide (2 ≤ threadSteps evs')
          ∧ (t'.pc = Pc.eventLoop → 4 ≤ threadSteps evs')) :=
  ⟨_, _, rfl, rfl, rfl, first_tick_stops_on_early_record (idleEngine false) 4 "worker.js" () ()
    [Event.subscribeToWorker "a" 1 true, Event.emitToWorker "a" [], Event.thread]
    [Event.thread, Event.thread, Event.thread]
    (by decide) (by decide) (by decide) _ _ rfl⟩

/-- C9 (the code departs from it).  Whenever a `once` entry is registered
under the name of a queued record, the dispatch pass does not return a
result, for any engine and any fuel: the entries of the range up to the
`once` entry are called, the `once` node is erased, and the step `it++` from
the erased node is undefined (a record that carries an argument stops the
pass earlier still, at the first call).  No registry "with exactly the once
entries removed" is ever produced. -/
theorem once_entry_pass_does_not_return (E : Engine M V σ) (fuel : Nat) (s : Side M σ)
    (hwf : s.eventHandlers.WF)
    (h : ∃ event ∈ s.queuedEvents, ∃ y ∈ s.eventHandlers.range event.1, y.val.once = true) :
    ∀ r, HandleEventQueue E fuel s ≠ Except.ok r := by
  obtain ⟨event, he, y, hy, hyo⟩ := h
  exact drainQueue_bad_queued E fuel fuel s hwf ⟨event, he, y, hy, Or.inr hyo⟩

/-- C9, an instance: a `once` entry between two other entries of "x"; the
pass stops with undefined behaviour. -/
theorem once_entry_pass_does_not_return_witness :
    HandleEventQueue (idleEngine false) 5
        (⟨[("x", [])],
          ((EventHandlerMap.empty.insert "x" ⟨1, false⟩).insert "x" ⟨2, true⟩).insert "x" ⟨3, false⟩,
          (), []⟩ : Side String Unit)
      = Except.error Fault.undefinedBehaviour
    ∧ ∀ r, HandleEventQueue (idleEngine false) 5
        (⟨[("x", [])],
          ((EventHandlerMap.empty.insert "x" ⟨1, false⟩).insert "x" ⟨2, true⟩).insert "x" ⟨3, false⟩,
          (), []⟩ : Side String Unit) ≠ Except.ok r :=
  ⟨rfl, once_entry_pass_does_not_return (idleEngine false) 5 _
    (EventHandlerMap.WF_insert (EventHandlerMap.WF_insert (EventHandlerMap.WF_insert
      EventHandlerMap.WF_empty _ _) _ _) _ _)
    ⟨("x", []), by simp, ⟨1, "x", ⟨2, true⟩⟩, by decide, rfl⟩⟩

end CWorker
